import Mathlib

/-!
# Verification of the Heronix-SchedulerV2 maintenance patch scripts

This file gives a shallow embedding of the Python patch scripts
(`fix_all_errors.py`, `fix_errors.py`, `fix_remaining.py`,
`fix_phase2_imports.py`) and proves properties of the embedded code.

File contents are modelled as `List Char`; the filesystem is a partial map
from path strings to contents.  Python's `re` substitutions are modelled by
a small regular-expression engine covering exactly the constructs used by
the scripts: literal characters, `.`, the classes `\s`, `\w`, `[a-zA-Z_]`,
`[a-zA-Z0-9_]`, `[^;]`, `[^{]`, `[^)]`, the greedy quantifiers `*` and `+`
(with backtracking), word boundaries `\b`, negative lookahead on a literal
word, and a capturing group.  `re.MULTILINE` only affects the anchors
`^`/`$`, which none of the modelled patterns use, so of the flag set
`re.MULTILINE | re.DOTALL` only the DOTALL part (`.` matching newline) is
modelled, as a boolean parameter.  None of the modelled patterns can match
the empty string, so the substitution scanner treats a hypothetical
zero-width match as a non-match.
-/

/-- File contents, the Python `str` read from / written to a file. -/
abbrev Content := List Char

/-- Python's `\s` on the ASCII range. -/
def isWsChar (c : Char) : Bool :=
  c = ' ' || c = '\t' || c = '\n' || c = '\r' || c = '\x0b' || c = '\x0c'

/-- Python's `\w` on the ASCII range: `[a-zA-Z0-9_]`. -/
def isWordChar (c : Char) : Bool :=
  c.isAlpha || c.isDigit || c = '_'

/-- Character classes appearing in the scripts' patterns. -/
inductive CClass where
  /-- a literal character (possibly written escaped in the pattern) -/
  | lit (c : Char)
  /-- `.` -/
  | any
  /-- `\s` -/
  | ws
  /-- `\w` and `[a-zA-Z0-9_]` -/
  | word
  /-- `[a-zA-Z_]` -/
  | wordStart
  /-- `[^;]` -/
  | notSemi
  /-- `[^{]` -/
  | notBrace
  /-- `[^)]` -/
  | notParen
  deriving DecidableEq, Repr

/-- Whether class `a` matches character `c`; `d` is the DOTALL flag. -/
def classMatch (d : Bool) : CClass → Char → Bool
  | .lit a, c => a = c
  | .any, c => d || c ≠ '\n'
  | .ws, c => isWsChar c
  | .word, c => isWordChar c
  | .wordStart, c => c.isAlpha || c = '_'
  | .notSemi, c => c ≠ ';'
  | .notBrace, c => c ≠ '{'
  | .notParen, c => c ≠ ')'

/-- A pattern, written as a right-nested sequence (each constructor carries
the rest of the pattern), so that the matcher is structurally recursive. -/
inductive Pat where
  /-- the empty pattern -/
  | eps
  /-- a single-character class -/
  | one (a : CClass) (p : Pat)
  /-- greedy `*` over a class -/
  | star (a : CClass) (p : Pat)
  /-- greedy `+` over a class -/
  | plus (a : CClass) (p : Pat)
  /-- `\b` -/
  | wb (p : Pat)
  /-- negative lookahead `(?!w)` on a literal word -/
  | nla (w : List Char) (p : Pat)
  /-- a capturing group -/
  | cap (g : Pat) (p : Pat)

/-- One piece of a replacement template: literal text or a group reference
(`\1` is `.group 0`). -/
inductive RPiece where
  | lit (l : List Char)
  | group (i : Nat)

/-- The pattern matching the characters of `l` literally, followed by
pattern `p`. -/
def litL (l : List Char) (p : Pat) : Pat :=
  l.foldr (fun c q => Pat.one (CClass.lit c) q) p

/-- The pattern matching string `s` literally, followed by pattern `p`
(escaped regex literals such as `teacherRepository\.` denote their text). -/
def litP (s : String) (p : Pat) : Pat :=
  litL s.toList p

/-- Concatenation of two patterns. -/
def patSeq : Pat → Pat → Pat
  | .eps, q => q
  | .one a p, q => .one a (patSeq p q)
  | .star a p, q => .star a (patSeq p q)
  | .plus a p, q => .plus a (patSeq p q)
  | .wb p, q => .wb (patSeq p q)
  | .nla w p, q => .nla w (patSeq p q)
  | .cap g p, q => .cap g (patSeq p q)

/-- Length of the maximal prefix whose characters all satisfy `p`
(what a greedy quantifier consumes before backtracking). -/
def maxRun (p : Char → Bool) : List Char → Nat
  | [] => 0
  | c :: cs => if p c then maxRun p cs + 1 else 0

/-- Try `f j, f (j-1), ..., f 0` and return the first success
(greedy `*` backtracking order). -/
def tryCounts (f : Nat → Option α) : Nat → Option α
  | 0 => f 0
  | j + 1 =>
    match f (j + 1) with
    | some r => some r
    | none => tryCounts f j

/-- Try `f j, f (j-1), ..., f 1` and return the first success
(greedy `+` backtracking order). -/
def tryCountsPos (f : Nat → Option α) : Nat → Option α
  | 0 => none
  | j + 1 =>
    match f (j + 1) with
    | some r => some r
    | none => tryCountsPos f j

/-- Python's `\b` test between the previous character (`none` at the string
edge) and the next one. -/
def isBoundary (prev next : Option Char) : Bool :=
  (match prev with | some c => isWordChar c | none => false)
    != (match next with | some c => isWordChar c | none => false)

/-- The character preceding position `n` of `s`, where `prev` precedes
position `0`. -/
def prevAfter (prev : Option Char) (s : List Char) (n : Nat) : Option Char :=
  if n = 0 then prev else s[n - 1]?

/-- Backtracking matcher in continuation-passing style.  `prev` is the
character just before the current position (for `\b`), `k` receives the new
`prev` and the unconsumed remainder; a successful overall match returns the
final remainder together with the list of captured group texts. -/
def matchK (d : Bool) :
    Pat → Option Char → List Char →
    (Option Char → List Char → Option (List Char × List (List Char))) →
    Option (List Char × List (List Char))
  | .eps, prev, s, k => k prev s
  | .one a p, _, s, k =>
    match s with
    | [] => none
    | c :: cs => if classMatch d a c then matchK d p (some c) cs k else none
  | .star a p, prev, s, k =>
    tryCounts (fun j => matchK d p (prevAfter prev s j) (s.drop j) k)
      (maxRun (classMatch d a) s)
  | .plus a p, prev, s, k =>
    tryCountsPos (fun j => matchK d p (prevAfter prev s j) (s.drop j) k)
      (maxRun (classMatch d a) s)
  | .wb p, prev, s, k =>
    if isBoundary prev s.head? then matchK d p prev s k else none
  | .nla w p, prev, s, k =>
    if w.isPrefixOf s then none else matchK d p prev s k
  | .cap g p, prev, s, k =>
    matchK d g prev s (fun prev' s' =>
      (matchK d p prev' s' k).map
        (fun r => (r.1, s.take (s.length - s'.length) :: r.2)))

/-- Try to match pattern `p` at the start of `s`; on success return the
remainder after the match and the captured groups. -/
def matchAt (d : Bool) (p : Pat) (prev : Option Char) (s : List Char) :
    Option (List Char × List (List Char)) :=
  matchK d p prev s (fun _ s' => some (s', []))

/-- Instantiate a replacement template with the captured groups. -/
def renderR (caps : List (List Char)) : List RPiece → List Char
  | [] => []
  | .lit l :: r => l ++ renderR caps r
  | .group i :: r => caps.getD i [] ++ renderR caps r

/-- Fuelled substitution scanner; `subG` below supplies adequate fuel.
Scan left to right, replace every (non-overlapping, leftmost) match, copy
non-matching characters; the `prev` context character is taken from the
original string, as in Python. -/
def subFuel (d : Bool) (p : Pat) (r : List RPiece) :
    Nat → Option Char → List Char → List Char
  | 0, _, s => s
  | _ + 1, _, [] => []
  | fuel + 1, prev, c :: cs =>
    match matchAt d p prev (c :: cs) with
    | some (rem, caps) =>
      if rem.length < cs.length + 1 then
        renderR caps r ++
          subFuel d p r fuel (prevAfter prev (c :: cs) (cs.length + 1 - rem.length)) rem
      else c :: subFuel d p r fuel (some c) cs
    | none => c :: subFuel d p r fuel (some c) cs

/-- `re.sub(p, r, s)` with DOTALL flag `d` and left context `prev`. -/
def subG (d : Bool) (p : Pat) (r : List RPiece) (prev : Option Char)
    (s : List Char) : List Char :=
  subFuel d p r s.length prev s

/-- `re.search(p, s).end()`: absolute index just after the leftmost match,
or `none` when there is no match. -/
def searchEnd (d : Bool) (p : Pat) : Option Char → Nat → List Char → Option Nat
  | prev, i, [] =>
    match matchAt d p prev [] with
    | some _ => some i
    | none => none
  | prev, i, c :: cs =>
    match matchAt d p prev (c :: cs) with
    | some (rem, _) => some (i + (cs.length + 1 - rem.length))
    | none => searchEnd d p (some c) (i + 1) cs

/-- Python's `needle in haystack` substring test. -/
def containsSub (needle : List Char) : List Char → Bool
  | [] => needle.isEmpty
  | c :: cs => needle.isPrefixOf (c :: cs) || containsSub needle cs

/-- Python's `str.replace(old, new)` for a non-empty literal `old`: replace
every non-overlapping occurrence scanning left to right, which coincides
with an unflagged `re.sub` whose pattern is the escaped literal. -/
def strReplace (old new : Content) (s : Content) : Content :=
  subG false (litL old .eps) [.lit new] none s

/-- Python's `f.readlines()` on text `s`: split into lines, each keeping its
trailing newline; a last line without a newline is kept as well.
`List.flatten` of the result (Python's `writelines`) restores `s`. -/
def linesOf : Content → List Content
  | [] => []
  | c :: cs =>
    if c = '\n' then [c] :: linesOf cs
    else
      match linesOf cs with
      | [] => [[c]]
      | l :: ls => (c :: l) :: ls

/-- Python's `str.strip()`: remove leading and trailing whitespace. -/
def stripWs (s : Content) : Content :=
  ((s.dropWhile (fun c => isWsChar c)).reverse.dropWhile
    (fun c => isWsChar c)).reverse

/-!
## Filesystem model

A filesystem maps a path to the content of the file stored there, or `none`
when the file does not exist.  Blocks record the paths they write (in
order) and the lines they print, so that "a write was performed" and the
console output are observable.
-/

/-- The filesystem: `os.path.exists` is `(fs p).isSome`, reading is `fs p`. -/
abbrev FS := String → Option Content

/-- Writing file `path` (truncate-and-write in place). -/
def fsWrite (fs : FS) (path : String) (c : Content) : FS :=
  fun q => if q = path then some c else fs q

/-- `os.path.join` with the Windows separator used by the scripts. -/
def joinPath (a b : String) : String :=
  a ++ "\\" ++ b

/-- `os.path.basename` for the Windows-style paths used by the scripts. -/
def basename (p : String) : String :=
  ⟨p.toList.foldl (fun acc c => if c = '/' || c = '\\' then [] else acc ++ [c]) []⟩

/-- `base_dir`, shared by the scripts. -/
def base_dir : String :=
  "H:\\Heronix\\Heronix-SchedulerV2\\src\\main\\java\\com\\heronix\\scheduler"

/-!
## `fix_all_errors.py`: `fix_file`

```python
def fix_file(file_path, fixes_list):
    if not os.path.exists(file_path):
        print(f"File not found: {file_path}")
        return False
    with open(file_path, 'r', encoding='utf-8') as f:
        content = f.read()
    original = content
    for old_pattern, new_text in fixes_list:
        content = re.sub(old_pattern, new_text, content, flags=re.MULTILINE | re.DOTALL)
    if content != original:
        with open(file_path, 'w', encoding='utf-8') as f:
            f.write(content)
        return True
    return False
```
-/

/-- A rewrite rule: `(old_pattern, new_text)`. -/
structure Rule where
  pat : Pat
  repl : List RPiece

/-- The `for old_pattern, new_text in fixes_list` loop of `fix_file`:
substitutions with `flags=re.MULTILINE | re.DOTALL`, i.e. DOTALL on. -/
def applyRules (fixes_list : List Rule) (content : Content) : Content :=
  fixes_list.foldl (fun acc r => subG true r.pat r.repl none acc) content

/-- Observable outcome of a `fix_file` call. -/
structure FixFileResult where
  /-- the boolean return value -/
  changed : Bool
  /-- the filesystem afterwards -/
  fs : FS
  /-- paths written, in order -/
  writes : List String
  /-- lines printed -/
  out : List String

/-- `fix_file` itself. -/
def fix_file (fs : FS) (file_path : String) (fixes_list : List Rule) :
    FixFileResult :=
  match fs file_path with
  | none => ⟨false, fs, [], ["File not found: " ++ file_path]⟩
  | some content =>
    let c2 := applyRules fixes_list content
    if c2 ≠ content then ⟨true, fsWrite fs file_path c2, [file_path], []⟩
    else ⟨false, fs, [], []⟩

/-- Path of `ScheduleSlotEditDialogController.java` (used by several
scripts). -/
def ssePath : String :=
  joinPath (joinPath (joinPath base_dir "controller") "ui")
    "ScheduleSlotEditDialogController.java"

/-- The two rules of `fix_all_errors.py`'s `ScheduleSlotEditDialogController`
`sisDataService` call: each replacement is exactly the text its (escaped
literal) pattern matches. -/
def sseFixAllRules : List Rule :=
  [⟨litP "sisDataService.getTeacherById(" .eps,
    [.lit "sisDataService.getTeacherById(".toList]⟩,
   ⟨litP "sisDataService.getCourseById(" .eps,
    [.lit "sisDataService.getCourseById(".toList]⟩]

/-- The `"Fixed: ..."` message printed when that `fix_file` call returns
`True`. -/
def sseFixAllMsg : String :=
  "Fixed: ScheduleSlotEditDialogController.java - sisDataService"

/-- The `if fix_file(...): print(...)` block for
`ScheduleSlotEditDialogController.java` in `fix_all_errors.py`. -/
def sseFixAllBlock (fs : FS) : FS × List String :=
  let r := fix_file fs ssePath sseFixAllRules
  (r.fs, r.out ++ if r.changed then [sseFixAllMsg] else [])

/-!
## `fix_errors.py`: the module-level fix loop

```python
for fix in fixes:
    file_path = fix["file"]
    if os.path.exists(file_path):
        with open(file_path, 'r', encoding='utf-8') as f:
            content = f.read()
        original = content
        content = re.sub(fix["old"], fix["new"], content)
        if content != original:
            with open(file_path, 'w', encoding='utf-8') as f:
                f.write(content)
            print(f"Fixed: {os.path.basename(file_path)}")
        else:
            print(f"No match found in: {os.path.basename(file_path)}")
    else:
        print(f"File not found: {file_path}")
```
-/

/-- One entry of the `fixes` list: `{"file": ..., "old": ..., "new": ...}`. -/
structure FixEntry where
  file : String
  old : Pat
  new : List RPiece

/-- One iteration of the loop body (substitution without flags: DOTALL off).
Returns the filesystem afterwards, the paths written and the printed
lines. -/
def runFix (fs : FS) (fx : FixEntry) : FS × List String × List String :=
  match fs fx.file with
  | none => (fs, [], ["File not found: " ++ fx.file])
  | some content =>
    let c2 := subG false fx.old fx.new none content
    if c2 ≠ content then
      (fsWrite fs fx.file c2, [fx.file], ["Fixed: " ++ basename fx.file])
    else (fs, [], ["No match found in: " ++ basename fx.file])

/-- The whole loop over a `fixes` list. -/
def runFixes (fs : FS) : List FixEntry → FS × List String × List String
  | [] => (fs, [], [])
  | fx :: rest =>
    let r := runFix fs fx
    let r2 := runFixes r.1 rest
    (r2.1, r.2.1 ++ r2.2.1, r.2.2 ++ r2.2.2)

/-- The `DutyRosterController` entry of `fix_errors.py`:
`old = r"teacherRepository\."`, `new = "sisDataService."`. -/
def dutyRosterFix : FixEntry :=
  ⟨joinPath (joinPath (joinPath base_dir "controller") "ui")
      "DutyRosterController.java",
   litP "teacherRepository." .eps,
   [.lit "sisDataService.".toList]⟩

/-!
## `fix_errors.py`'s loop over a filesystem where I/O can fail

To reason about unhandled I/O exceptions (claim about batch termination)
the same loop is modelled over a filesystem whose files may fail on read or
on write; the loop has no `try`/`except`, so such a failure propagates as
an uncaught exception (`Except.error`) that ends the run.
-/

/-- A file's state: absent, or present with flags saying whether an attempt
to read resp. write it raises an I/O error. -/
inductive FileSt where
  | missing
  | file (c : Content) (readErr : Bool) (writeErr : Bool)

/-- A filesystem with possible I/O failures. -/
abbrev FS2 := String → FileSt

/-- One loop iteration; `Except.error` is an uncaught exception. -/
def runFixE (fs : FS2) (fx : FixEntry) : Except String (FS2 × List String) :=
  match fs fx.file with
  | .missing => .ok (fs, ["File not found: " ++ fx.file])
  | .file content rerr werr =>
    if rerr then .error ("IOError reading " ++ fx.file)
    else
      let c2 := subG false fx.old fx.new none content
      if c2 ≠ content then
        if werr then .error ("IOError writing " ++ fx.file)
        else
          .ok (fun q => if q = fx.file then .file c2 rerr werr else fs q,
            ["Fixed: " ++ basename fx.file])
      else .ok (fs, ["No match found in: " ++ basename fx.file])

/-- The loop: an uncaught exception in one iteration ends the whole run;
iterations for the remaining entries never happen. -/
def runBatchE (fs : FS2) : List FixEntry → Except String (FS2 × List String)
  | [] => .ok (fs, [])
  | fx :: rest => do
    let r ← runFixE fs fx
    let r2 ← runBatchE r.1 rest
    .ok (r2.1, r.2 ++ r2.2)

/-!
## `fix_remaining.py`

Each block reads one file (`open` raises an uncaught `FileNotFoundError`
when the file is absent — there is no existence check — modelled by the
`Option` bind), edits it and writes it back.  The run is the sequential
composition of the blocks; `none` is an uncaught exception ending the run.
The per-block `..Edit` functions carry the pure text transformation; list
indexing `lines[i]` raises on an out-of-range index and is therefore
modelled by the fallible `lines[i]?`.
-/

/-- State of a script run: the filesystem plus the observable write and
print events so far. -/
structure ScriptState where
  fs : FS
  writes : List String
  out : List String

/-- Perform a write. -/
def doWrite (st : ScriptState) (p : String) (c : Content) : ScriptState :=
  ⟨fsWrite st.fs p c, st.writes ++ [p], st.out⟩

/-- Perform a print. -/
def doPrint (st : ScriptState) (m : String) : ScriptState :=
  ⟨st.fs, st.writes, st.out ++ [m]⟩

/-- `service\RoomEquipmentService.java`. -/
def roomEqPath : String :=
  joinPath (joinPath base_dir "service") "RoomEquipmentService.java"

/-- `service\impl\SmartCourseAssignmentService.java`. -/
def smartCoursePath : String :=
  joinPath (joinPath (joinPath base_dir "service") "impl")
    "SmartCourseAssignmentService.java"

/-- `service\ScheduleIssueDetector.java`. -/
def schedIssuePath : String :=
  joinPath (joinPath base_dir "service") "ScheduleIssueDetector.java"

/-- `controller\ui\EventsController.java`. -/
def eventsPath : String :=
  joinPath (joinPath (joinPath base_dir "controller") "ui")
    "EventsController.java"

/-- `controller\ui\ScheduleGeneratorController.java`. -/
def schedGenPath : String :=
  joinPath (joinPath (joinPath base_dir "controller") "ui")
    "ScheduleGeneratorController.java"

/-- `controller\ui\SchedulesController.java`. -/
def schedulesPath : String :=
  joinPath (joinPath (joinPath base_dir "controller") "ui")
    "SchedulesController.java"

/-- `controller\ui\ScheduleViewController.java`. -/
def viewPath : String :=
  joinPath (joinPath (joinPath base_dir "controller") "ui")
    "ScheduleViewController.java"

/-- `controller\ui\ScheduleViewerController.java`. -/
def viewerPath : String :=
  joinPath (joinPath (joinPath base_dir "controller") "ui")
    "ScheduleViewerController.java"

/-- `controller\ui\EnhancedScheduleViewController.java`. -/
def enhancedPath : String :=
  joinPath (joinPath (joinPath base_dir "controller") "ui")
    "EnhancedScheduleViewController.java"

/-- Lines 12–17: guarded edits of lines 181 and 298 (0-indexed 180, 297).
The returned flag says whether the guard fired (write and print happen). -/
def roomEquipEdit (lines : List Content) : Option (List Content × Bool) :=
  if lines.length ≥ 298 then do
    let l180 ← lines[180]?
    let lines1 := lines.set 180 (strReplace ".getDisplayName()".toList [] l180)
    let l297 ← lines1[297]?
    let lines2 :=
      lines1.set 297 (strReplace ".getDisplayName()".toList [] l297)
    pure (lines2, true)
  else pure (lines, false)

/-- The RoomEquipmentService block (lines 7–17). -/
def roomEquipBlock (st : ScriptState) : Option ScriptState := do
  let content ← st.fs roomEqPath
  let (lines, fired) ← roomEquipEdit (linesOf content)
  if fired then
    pure (doPrint (doWrite st roomEqPath lines.flatten)
      "Fixed: RoomEquipmentService.java lines 181, 298")
  else pure st

/-- `\bteacherRepository\b`. -/
def patTeacherRepoW : Pat := Pat.wb (litP "teacherRepository" (Pat.wb .eps))

/-- `\bcourseRepository\b`. -/
def patCourseRepoW : Pat := Pat.wb (litP "courseRepository" (Pat.wb .eps))

/-- `([a-zA-Z_][a-zA-Z0-9_]*)\.getDisplayName\(\)`. -/
def patGetDisplay : Pat :=
  Pat.cap (Pat.one .wordStart (Pat.star .word .eps))
    (litP ".getDisplayName()" .eps)

/-- Lines 25–28: the three substitutions on the whole content. -/
def sseEdit (content : Content) : Content :=
  subG false patGetDisplay [.group 0] none
    (subG false patCourseRepoW [.lit "sisDataService".toList] none
      (subG false patTeacherRepoW [.lit "sisDataService".toList] none content))

/-- The ScheduleSlotEditDialogController block (lines 20–32): the write at
line 30 is unconditional — it happens even when the substitutions changed
nothing. -/
def sseBlock (st : ScriptState) : Option ScriptState := do
  let content ← st.fs ssePath
  pure (doPrint (doWrite st ssePath (sseEdit content))
    "Fixed: ScheduleSlotEditDialogController.java")

/-- The SmartCourseAssignmentService block (lines 35–42); the write is
unconditional. -/
def smartCourseBlock (st : ScriptState) : Option ScriptState := do
  let content ← st.fs smartCoursePath
  let c2 := strReplace "sisDataService.getCoursesByTeacherId(".toList
    "sisDataService.getCourseById(".toList content
  pure (doPrint (doWrite st smartCoursePath c2)
    "Fixed: SmartCourseAssignmentService.java")

/-- Lines 49–52: guarded edit of line 363 (0-indexed 362). -/
def schedIssueEdit (lines : List Content) : Option (List Content × Bool) :=
  if lines.length ≥ 363 then do
    let l362 ← lines[362]?
    pure (lines.set 362 (strReplace "this::isUnassigned".toList
      "slot -> this.isUnassigned(slot)".toList l362), true)
  else pure (lines, false)

/-- The ScheduleIssueDetector block (lines 45–53). -/
def schedIssueBlock (st : ScriptState) : Option ScriptState := do
  let content ← st.fs schedIssuePath
  let (lines, fired) ← schedIssueEdit (linesOf content)
  if fired then
    pure (doPrint (doWrite st schedIssuePath lines.flatten)
      "Fixed: ScheduleIssueDetector.java line 363")
  else pure st

/-- Lines 60–64: guarded edit of line 636 (0-indexed 635); the inserted
comment line is built from the just-updated `lines[635]`. -/
def eventsEdit (lines : List Content) : Option (List Content × Bool) :=
  if lines.length ≥ 636 then do
    let l635 ← lines[635]?
    if containsSub "exportEventsToICal".toList l635
        && !containsSub "// TODO".toList l635 then do
      let lines1 := lines.set 635
        "                // TODO: Method exportEventsToICal does not exist\n".toList
      let l635ii ← lines1[635]?
      pure (lines1.insertIdx 636
        ("                // ".toList ++ stripWs l635ii ++ "\n".toList), true)
    else pure (lines, false)
  else pure (lines, false)

/-- The EventsController block (lines 56–67). -/
def eventsBlock (st : ScriptState) : Option ScriptState := do
  let content ← st.fs eventsPath
  let (lines, fired) ← eventsEdit (linesOf content)
  if fired then
    pure (doPrint (doWrite st eventsPath lines.flatten)
      "Fixed: EventsController.java line 636")
  else pure st

/-- `\.show\([^)]*\)`. -/
def patShowParen : Pat := litP ".show(" (Pat.star .notParen (litP ")" .eps))

/-- Lines 74–77: guarded edit of line 1101 (0-indexed 1100); the two
assignments to `lines[1100]` chain. -/
def schedGenEdit (lines : List Content) : Option (List Content × Bool) :=
  if lines.length ≥ 1101 then do
    let l ← lines[1100]?
    let l1 := strReplace ".showAndWait()".toList ".show()".toList l
    let l2 := subG false patShowParen [.lit ".show()".toList] none l1
    pure (lines.set 1100 l2, true)
  else pure (lines, false)

/-- The ScheduleGeneratorController block (lines 70–80). -/
def schedGenBlock (st : ScriptState) : Option ScriptState := do
  let content ← st.fs schedGenPath
  let (lines, fired) ← schedGenEdit (linesOf content)
  if fired then
    pure (doPrint (doWrite st schedGenPath lines.flatten)
      "Fixed: ScheduleGeneratorController.java line 1101")
  else pure st

/-- Lines 87–94: the two guarded edits of lines 1180 and 1363 (0-indexed
1179, 1362). -/
def schedulesEdit (lines : List Content) : Option (List Content) := do
  let lines1 ←
    if lines.length ≥ 1180 then do
      let l ← lines[1179]?
      if containsSub "exportSchedule".toList l
          && !containsSub "// TODO".toList l then
        pure (lines.set 1179 (strReplace
          "exportService.exportSchedule(scheduleId, format)".toList
          "// TODO: exportSchedule does not exist\n                    null // exportService.exportSchedule(scheduleId, format)".toList
          l))
      else pure lines
    else pure lines
  let lines2 ←
    if lines1.length ≥ 1363 then do
      let l ← lines1[1362]?
      if containsSub "controller.".toList l
          && !containsSub "// TODO".toList l then
        pure (lines1.set 1362 (strReplace "controller.".toList
          "// TODO: controller undefined\n            // controller.".toList l))
      else pure lines1
    else pure lines1
  pure lines2

/-- The SchedulesController block (lines 83–98): the write at line 96 is
unconditional (outside both guards). -/
def schedulesBlock (st : ScriptState) : Option ScriptState := do
  let content ← st.fs schedulesPath
  let lines2 ← schedulesEdit (linesOf content)
  pure (doPrint (doWrite st schedulesPath lines2.flatten)
    "Fixed: SchedulesController.java lines 1180, 1363")

/-- `calendarGrid\.renderWeeklyGrid\([^;]+\);`. -/
def patRenderWeekly : Pat :=
  litP "calendarGrid.renderWeeklyGrid(" (Pat.plus .notSemi (litP ");" .eps))

/-- `calendarGrid\.renderDailyGrid\([^;]+\);`. -/
def patRenderDaily : Pat :=
  litP "calendarGrid.renderDailyGrid(" (Pat.plus .notSemi (litP ");" .eps))

/-- `calendarGrid\.getSubjectColors\(\)`. -/
def patSubjectColors : Pat := litP "calendarGrid.getSubjectColors()" .eps

/-- Lines 107–122: the three substitutions on the whole content. -/
def viewEdit (content : Content) : Content :=
  subG false patSubjectColors
    [.lit "new java.util.HashMap<String, String>() // getSubjectColors() does not exist".toList]
    none
    (subG false patRenderDaily
      [.lit "// TODO: renderDailyGrid signature mismatch\n                // calendarGrid.renderDailyGrid(...);".toList]
      none
      (subG false patRenderWeekly
        [.lit "// TODO: renderWeeklyGrid signature mismatch\n                // calendarGrid.renderWeeklyGrid(...);".toList]
        none content))

/-- One iteration of the `for filename in [...]` loop (lines 101–127);
here the write is conditional on a change. -/
def viewFileBlock (path : String) (name : String) (st : ScriptState) :
    Option ScriptState := do
  let content ← st.fs path
  let c2 := viewEdit content
  if c2 ≠ content then
    pure (doPrint (doWrite st path c2) ("Fixed: " ++ name))
  else pure st

/-- `Schedule\s+([a-zA-Z_]+)\s*=\s*// TODO:.*`. -/
def patSchedTodo : Pat :=
  litP "Schedule" (Pat.plus .ws (Pat.cap (Pat.plus .wordStart .eps)
    (Pat.star .ws (litP "=" (Pat.star .ws (litP "// TODO:"
      (Pat.star .any .eps)))))))

/-- Lines 134–141: guarded edit of line 1333 (0-indexed 1332). -/
def enhancedEdit (lines : List Content) : Option (List Content × Bool) :=
  if lines.length ≥ 1333 then do
    let l ← lines[1332]?
    pure (lines.set 1332 (subG false patSchedTodo
      [.lit "// TODO: resolveConflict returns void\n                    Schedule ".toList,
       .group 0, .lit " = null; //".toList] none l), true)
  else pure (lines, false)

/-- The EnhancedScheduleViewController block (lines 130–144). -/
def enhancedBlock (st : ScriptState) : Option ScriptState := do
  let content ← st.fs enhancedPath
  let (lines, fired) ← enhancedEdit (linesOf content)
  if fired then
    pure (doPrint (doWrite st enhancedPath lines.flatten)
      "Fixed: EnhancedScheduleViewController.java line 1333")
  else pure st

/-- The whole `fix_remaining.py` run: the blocks in program order; a
missing file in any block is an uncaught exception (`none`) that ends the
run, so no later block executes. -/
def fixRemainingScript (st : ScriptState) : Option ScriptState := do
  let st1 ← roomEquipBlock st
  let st2 ← sseBlock st1
  let st3 ← smartCourseBlock st2
  let st4 ← schedIssueBlock st3
  let st5 ← eventsBlock st4
  let st6 ← schedGenBlock st5
  let st7 ← schedulesBlock st6
  let st8 ← viewFileBlock viewPath "ScheduleViewController.java" st7
  let st9 ← viewFileBlock viewerPath "ScheduleViewerController.java" st8
  let st10 ← enhancedBlock st9
  pure (doPrint st10 "\nAll remaining fixes applied!")

/-!
## `fix_phase2_imports.py`: per-file processing

The body of the `try` block for one file, as a pure function of the
content (the claims about this script concern its insertion guards, which
are content-level).  The five regex operations use no flags (DOTALL off):

```python
if 'import com.heronix.scheduler.service.data.SISDataService;' not in content:
    import_pattern = r'(import [^;]+;)\n(?!import)'
    match = re.search(import_pattern, content)
    if match:
        insert_pos = match.end()
        content = content[:insert_pos] + '\nimport com.heronix.scheduler.service.data.SISDataService;' + content[insert_pos:]
content = re.sub(r'@Autowired\s+private\s+TeacherRepository\s+teacherRepository;', '', content)
content = re.sub(r'@Autowired\s+private\s+CourseRepository\s+courseRepository;', '', content)
content = re.sub(r'@Autowired\s+private\s+StudentRepository\s+studentRepository;', '', content)
if 'private SISDataService sisDataService;' not in content:
    class_pattern = r'(public class \w+[^{]*\{)\s*\n'
    match = re.search(class_pattern, content)
    if match:
        insert_pos = match.end()
        content = content[:insert_pos] + '\n    @Autowired\n    private SISDataService sisDataService;\n' + content[insert_pos:]
content = re.sub(r'\n\s*\n\s*\n', '\n\n', content)
```
-/

/-- The guarded import line. -/
def importLine : Content :=
  "import com.heronix.scheduler.service.data.SISDataService;".toList

/-- The guarded field line. -/
def fieldLine : Content := "private SISDataService sisDataService;".toList

/-- `(import [^;]+;)\n(?!import)`. -/
def importAnchorPat : Pat :=
  Pat.cap (litP "import " (Pat.plus .notSemi (litP ";" .eps)))
    (Pat.one (.lit '\n') (Pat.nla "import".toList .eps))

/-- `@Autowired\s+private\s+TeacherRepository\s+teacherRepository;`. -/
def removalTeacherPat : Pat :=
  litP "@Autowired" (Pat.plus .ws (litP "private" (Pat.plus .ws
    (litP "TeacherRepository" (Pat.plus .ws
      (litP "teacherRepository;" .eps))))))

/-- `@Autowired\s+private\s+CourseRepository\s+courseRepository;`. -/
def removalCoursePat : Pat :=
  litP "@Autowired" (Pat.plus .ws (litP "private" (Pat.plus .ws
    (litP "CourseRepository" (Pat.plus .ws
      (litP "courseRepository;" .eps))))))

/-- `@Autowired\s+private\s+StudentRepository\s+studentRepository;`. -/
def removalStudentPat : Pat :=
  litP "@Autowired" (Pat.plus .ws (litP "private" (Pat.plus .ws
    (litP "StudentRepository" (Pat.plus .ws
      (litP "studentRepository;" .eps))))))

/-- `(public class \w+[^{]*\{)\s*\n`. -/
def classAnchorPat : Pat :=
  Pat.cap (litP "public class " (Pat.plus .word (Pat.star .notBrace
    (litP "\x7b" .eps)))) (Pat.star .ws (Pat.one (.lit '\n') .eps))

/-- `\n\s*\n\s*\n`. -/
def blankCollapsePat : Pat :=
  Pat.one (.lit '\n') (Pat.star .ws (Pat.one (.lit '\n')
    (Pat.star .ws (Pat.one (.lit '\n') .eps))))

/-- The text spliced in for the import. -/
def importInsertText : Content :=
  "\nimport com.heronix.scheduler.service.data.SISDataService;".toList

/-- The text spliced in for the field. -/
def fieldInsertText : Content :=
  "\n    @Autowired\n    private SISDataService sisDataService;\n".toList

/-- Result of processing one file's content, with the two insertion
indicators made observable. -/
structure Phase2Result where
  content : Content
  importInserted : Bool
  fieldInserted : Bool

/-- One file's processing in `fix_phase2_imports.py` (lines 30–67). -/
def phase2Process (c : Content) : Phase2Result :=
  let step1 :=
    if containsSub importLine c then (c, false)
    else
      match searchEnd false importAnchorPat none 0 c with
      | some pos => (c.take pos ++ importInsertText ++ c.drop pos, true)
      | none => (c, false)
  let c1 := step1.1
  let c2 := subG false removalTeacherPat [] none c1
  let c3 := subG false removalCoursePat [] none c2
  let c4 := subG false removalStudentPat [] none c3
  let step2 :=
    if containsSub fieldLine c4 then (c4, false)
    else
      match searchEnd false classAnchorPat none 0 c4 with
      | some pos => (c4.take pos ++ fieldInsertText ++ c4.drop pos, true)
      | none => (c4, false)
  let c5 := step2.1
  let c6 := subG false blankCollapsePat [.lit "\n\n".toList] none c5
  ⟨c6, step1.2, step2.2⟩

/-- The tail of `phase2Process` starting after the three removal
substitutions: the guarded field insertion followed by the blank-line
collapse, with the import indicator `imp` passed through. -/
def phase2Tail2 (c4 : Content) (imp : Bool) : Phase2Result :=
  let step2 :=
    if containsSub fieldLine c4 then (c4, false)
    else
      match searchEnd false classAnchorPat none 0 c4 with
      | some pos => (c4.take pos ++ fieldInsertText ++ c4.drop pos, true)
      | none => (c4, false)
  ⟨subG false blankCollapsePat [.lit "\n\n".toList] none step2.1, imp,
    step2.2⟩

/-- The tail of `phase2Process` starting after the import step: the three
removal substitutions, then `phase2Tail2`. -/
def phase2Tail (c1 : Content) (imp : Bool) : Phase2Result :=
  phase2Tail2 (subG false removalStudentPat [] none
    (subG false removalCoursePat [] none
      (subG false removalTeacherPat [] none c1))) imp

/-!
## The `fix_phase2_imports.py` per-file loop

The loop body is wrapped in `try: ... except Exception as e:` — any
failure while processing one file (a missing file, a read error, a write
error) is caught, printed as an `ERROR Error fixing <path>: <e>` line,
and the loop continues with the next file.  Modelled over the fallible
filesystem `FS2`: `phase2TryE` is the `try` body (an `Except.error` is a
raised exception), `phase2Except` the `try`/`except` wrapper, and
`phase2Batch` the loop over the `files` list.
-/

/-- The `try` body for one file: read (a missing file raises, as does a
read error), transform with `phase2Process`, write back unconditionally
(a write error raises). -/
def phase2TryE (fs : FS2) (path : String) : Except String (FS2 × String) :=
  match fs path with
  | .missing => .error ("No such file or directory: " ++ path)
  | .file c rerr werr =>
    if rerr then .error ("IOError reading " ++ path)
    else if werr then .error ("IOError writing " ++ path)
    else
      .ok (fun q => if q = path then
            .file (phase2Process c).content rerr werr
          else fs q,
        "OK Fixed: " ++ path)

/-- The `except Exception` handler: a raised exception is caught and
turned into an `ERROR` status line; the filesystem is left as it was. -/
def phase2Except (fs : FS2) (path : String) : FS2 × String :=
  match phase2TryE fs path with
  | .ok r => r
  | .error e => (fs, "ERROR Error fixing " ++ path ++ ": " ++ e)

/-- The loop over the `files` list: one status line per file, always
reaching the end of the list. -/
def phase2Batch (fs : FS2) : List String → FS2 × List String
  | [] => (fs, [])
  | p :: rest =>
    let r := phase2Except fs p
    let r2 := phase2Batch r.1 rest
    (r2.1, r.2 :: r2.2)

/-!
## Auxiliary notions for the proofs
-/

/-- The `prev` context after consuming the literal `l` (the last character
of `l`, or the old context when `l` is empty). -/
def lastPrev (prev : Option Char) (l : List Char) : Option Char :=
  match l.getLast? with
  | some c => some c
  | none => prev

/-- The texts a pattern can consume, ignoring context conditions (`\b` and
lookahead): a sound over-approximation of the matcher used to reason about
the shape of any consumed text. -/
inductive InLang (d : Bool) : Pat → List Char → Prop where
  | eps : InLang d .eps []
  | one {a : CClass} {c : Char} {p : Pat} {t : List Char} :
      classMatch d a c = true → InLang d p t → InLang d (.one a p) (c :: t)
  | star {a : CClass} {u : List Char} {p : Pat} {t : List Char} :
      (∀ c ∈ u, classMatch d a c = true) → InLang d p t →
      InLang d (.star a p) (u ++ t)
  | plus {a : CClass} {u : List Char} {p : Pat} {t : List Char} :
      u ≠ [] → (∀ c ∈ u, classMatch d a c = true) → InLang d p t →
      InLang d (.plus a p) (u ++ t)
  | wb {p : Pat} {t : List Char} : InLang d p t → InLang d (.wb p) t
  | nla {w : List Char} {p : Pat} {t : List Char} :
      InLang d p t → InLang d (.nla w p) t
  | cap {g p : Pat} {t : List Char} :
      InLang d (patSeq g p) t → InLang d (.cap g p) t

-- Sanity checks of the engine against Python's documented `re` behaviour.

example : subG false (litP "ab" .eps) [.lit "X".toList] none "zabab".toList
    = "zXX".toList := by decide

example : subG false (Pat.wb (litP "teacherRepository" (Pat.wb .eps)))
    [.lit "sisDataService".toList] none "xteacherRepository.f(".toList
    = "xteacherRepository.f(".toList := by decide

example : subG false (Pat.wb (litP "teacherRepository" (Pat.wb .eps)))
    [.lit "sisDataService".toList] none " teacherRepository.f(".toList
    = " sisDataService.f(".toList := by decide

example :
    subG false
      (Pat.one (.lit '\n') (Pat.star .ws (Pat.one (.lit '\n')
        (Pat.star .ws (Pat.one (.lit '\n') .eps)))))
      [.lit "\n\n".toList] none "a\n\n\n\nb".toList
    = "a\n\nb".toList := by decide

example : linesOf "ab\ncd\n".toList = ["ab\n".toList, "cd\n".toList] := by
  decide

example : linesOf "ab\ncd".toList = ["ab\n".toList, "cd".toList] := by decide

/-!
## Basic lemmas about the engine
-/

theorem subFuel_eq_of_le (d : Bool) (p : Pat) (r : List RPiece) :
    ∀ (fuel fuel' : Nat) (prev : Option Char) (s : List Char),
      s.length ≤ fuel → s.length ≤ fuel' →
      subFuel d p r fuel prev s = subFuel d p r fuel' prev s := by
  intro fuel
  induction fuel with
  | zero =>
    intro fuel' prev s hs _
    have hnil : s = [] := List.eq_nil_of_length_eq_zero (Nat.le_zero.mp hs)
    subst hnil
    cases fuel' <;> rfl
  | succ n ih =>
    intro fuel' prev s hs hs'
    cases s with
    | nil => cases fuel' <;> rfl
    | cons c cs =>
      cases fuel' with
      | zero => simp at hs'
      | succ m =>
        simp only [subFuel]
        cases h : matchAt d p prev (c :: cs) with
        | none =>
          have h1 : cs.length ≤ n := by simp at hs; omega
          have h2 : cs.length ≤ m := by simp at hs'; omega
          rw [ih m (some c) cs h1 h2]
        | some rc =>
          obtain ⟨rem, caps⟩ := rc
          by_cases hlt : rem.length < cs.length + 1
          · simp only [if_pos hlt]
            have h1 : rem.length ≤ n := by simp at hs; omega
            have h2 : rem.length ≤ m := by simp at hs'; omega
            rw [ih m _ rem h1 h2]
          · simp only [if_neg hlt]
            have h1 : cs.length ≤ n := by simp at hs; omega
            have h2 : cs.length ≤ m := by simp at hs'; omega
            rw [ih m (some c) cs h1 h2]

theorem subG_nil (d : Bool) (p : Pat) (r : List RPiece) (prev : Option Char) :
    subG d p r prev [] = [] := rfl

theorem subG_cons_match {d : Bool} {p : Pat} {prev : Option Char}
    {c : Char} {cs rem : List Char} {caps : List (List Char)}
    (r : List RPiece) (h : matchAt d p prev (c :: cs) = some (rem, caps))
    (hlt : rem.length < cs.length + 1) :
    subG d p r prev (c :: cs) =
      renderR caps r ++
        subG d p r (prevAfter prev (c :: cs) (cs.length + 1 - rem.length)) rem := by
  unfold subG
  simp only [List.length_cons, subFuel, h, if_pos hlt]
  exact congrArg _ (subFuel_eq_of_le d p r cs.length rem.length _ rem
    (by omega) le_rfl)

theorem subG_cons_nomatch {d : Bool} {p : Pat} {prev : Option Char}
    {c : Char} {cs : List Char}
    (r : List RPiece) (h : matchAt d p prev (c :: cs) = none) :
    subG d p r prev (c :: cs) = c :: subG d p r (some c) cs := by
  unfold subG
  simp only [List.length_cons, subFuel, h]

theorem subG_cons_zero {d : Bool} {p : Pat} {prev : Option Char}
    {c : Char} {cs rem : List Char} {caps : List (List Char)}
    (r : List RPiece) (h : matchAt d p prev (c :: cs) = some (rem, caps))
    (hge : ¬ rem.length < cs.length + 1) :
    subG d p r prev (c :: cs) = c :: subG d p r (some c) cs := by
  unfold subG
  simp only [List.length_cons, subFuel, h, if_neg hge]

theorem matchK_litL (d : Bool) :
    ∀ (l : List Char) (p : Pat) (prev : Option Char) (s : List Char)
      (k : Option Char → List Char →
        Option (List Char × List (List Char))),
      matchK d (litL l p) prev s k =
        if l.isPrefixOf s then matchK d p (lastPrev prev l) (s.drop l.length) k
        else none := by
  intro l
  induction l with
  | nil =>
    intro p prev s k
    simp [litL, lastPrev, List.isPrefixOf]
  | cons c l ih =>
    intro p prev s k
    cases s with
    | nil => simp [litL, matchK, List.isPrefixOf]
    | cons x xs =>
      show matchK d (Pat.one (CClass.lit c) (litL l p)) prev (x :: xs) k = _
      simp only [matchK, classMatch, List.isPrefixOf, List.drop_succ_cons]
      by_cases hcx : c = x
      · subst hcx
        rw [ih p (some c) xs k]
        have hlast : lastPrev (some c) l = lastPrev prev (c :: l) := by
          cases l with
          | nil => simp [lastPrev]
          | cons y ys =>
            have hg : (y :: ys).getLast? = some ((y :: ys).getLast (by simp)) :=
              List.getLast?_eq_getLast _ _
            simp [lastPrev, hg]
        by_cases hp : l.isPrefixOf xs
        · simp [hp, hlast]
        · simp [hp]
      · have : (decide (c = x)) = false := by simp [hcx]
        simp [this, Ne.symm hcx, hcx]

theorem matchAt_litL (d : Bool) (l : List Char) (prev : Option Char)
    (s : List Char) :
    matchAt d (litL l .eps) prev s =
      if l.isPrefixOf s then some (s.drop l.length, []) else none := by
  unfold matchAt
  rw [matchK_litL]
  by_cases hp : l.isPrefixOf s
  · simp [hp, matchK]
  · simp [hp]

theorem subG_litL_self_aux (d : Bool) (w : List Char) (hw : w ≠ []) :
    ∀ (n : Nat) (prev : Option Char) (s : List Char), s.length ≤ n →
      subG d (litL w .eps) [.lit w] prev s = s := by
  intro n
  induction n with
  | zero =>
    intro prev s hs
    have : s = [] := List.eq_nil_of_length_eq_zero (Nat.le_zero.mp hs)
    subst this
    rfl
  | succ n ih =>
    intro prev s hs
    cases s with
    | nil => rfl
    | cons c cs =>
      by_cases hp : w.isPrefixOf (c :: cs)
      · have hmatch : matchAt d (litL w .eps) prev (c :: cs)
            = some ((c :: cs).drop w.length, []) := by
          rw [matchAt_litL]
          simp [hp]
        have hpre : w <+: (c :: cs) := List.isPrefixOf_iff_prefix.mp hp
        obtain ⟨t, ht⟩ := hpre
        have hdrop : (c :: cs).drop w.length = t := by
          rw [← ht, List.drop_left]
        have hwpos : 0 < w.length := List.length_pos.mpr hw
        have hlen : cs.length + 1 = w.length + t.length := by
          have := congrArg List.length ht
          simpa using this.symm
        have hlt : ((c :: cs).drop w.length).length < cs.length + 1 := by
          rw [hdrop]
          omega
        rw [subG_cons_match _ hmatch hlt]
        rw [hdrop]
        have hrec : subG d (litL w .eps) [.lit w]
            (prevAfter prev (c :: cs) (cs.length + 1 - t.length)) t = t := by
          apply ih
          simp at hs
          omega
        rw [hrec]
        simp [renderR, ← ht]
      · have hmatch : matchAt d (litL w .eps) prev (c :: cs) = none := by
          rw [matchAt_litL]
          simp [hp]
        rw [subG_cons_nomatch _ hmatch]
        have : cs.length ≤ n := by
          simp at hs
          omega
        rw [ih (some c) cs this]

theorem subG_litL_self (d : Bool) (w : List Char) (hw : w ≠ [])
    (prev : Option Char) (s : List Char) :
    subG d (litL w .eps) [.lit w] prev s = s :=
  subG_litL_self_aux d w hw s.length prev s le_rfl

theorem subG_single_aux (d : Bool) (ch : Char) (rep : List Char) :
    ∀ (n : Nat) (prev : Option Char) (s : List Char), s.length ≤ n →
      subG d (litL [ch] .eps) [.lit rep] prev s
        = s.flatMap (fun x => if x = ch then rep else [x]) := by
  intro n
  induction n with
  | zero =>
    intro prev s hs
    have : s = [] := List.eq_nil_of_length_eq_zero (Nat.le_zero.mp hs)
    subst this
    rfl
  | succ n ih =>
    intro prev s hs
    cases s with
    | nil => rfl
    | cons c cs =>
      by_cases hc : c = ch
      · have hmatch : matchAt d (litL [ch] .eps) prev (c :: cs)
            = some (cs, []) := by
          rw [matchAt_litL]
          simp [List.isPrefixOf, hc]
        have hlt : cs.length < cs.length + 1 := by omega
        rw [subG_cons_match _ hmatch hlt]
        have hrec := ih (prevAfter prev (c :: cs) (cs.length + 1 - cs.length))
          cs (by simp at hs; omega)
        rw [hrec]
        simp [renderR, hc]
      · have hmatch : matchAt d (litL [ch] .eps) prev (c :: cs) = none := by
          rw [matchAt_litL]
          simp [List.isPrefixOf]
          exact fun h => hc h.symm
        rw [subG_cons_nomatch _ hmatch]
        rw [ih (some c) cs (by simp at hs; omega)]
        simp [List.flatMap_cons, hc]

theorem subG_single (d : Bool) (ch : Char) (rep : List Char)
    (prev : Option Char) (s : List Char) :
    subG d (litL [ch] .eps) [.lit rep] prev s
      = s.flatMap (fun x => if x = ch then rep else [x]) :=
  subG_single_aux d ch rep s.length prev s le_rfl

theorem applyRules_cons (r : Rule) (rs : List Rule) (c : Content) :
    applyRules (r :: rs) c = applyRules rs (subG true r.pat r.repl none c) :=
  rfl

theorem applyRules_id_of_rules_id {rules : List Rule} {T : Content}
    (h : ∀ r ∈ rules, subG true r.pat r.repl none T = T) :
    applyRules rules T = T := by
  induction rules with
  | nil => rfl
  | cons r rs ih =>
    rw [applyRules_cons, h r (by simp)]
    exact ih (fun r' hr' => h r' (by simp [hr']))

/-!
## The claims
-/

/-- C4: applying the `fix_errors.py` DutyRosterController rule (pattern
`teacherRepository\.`, replacement `sisDataService.`, substituted without
flags) to the input `"teacherRepository.findById("` yields exactly
`"sisDataService.findById("`. -/
theorem claim_C4 :
    subG false dutyRosterFix.old dutyRosterFix.new none
      "teacherRepository.findById(".toList
      = "sisDataService.findById(".toList := by
  decide

/-- C5: when every rule leaves the first run's output fixed (the claim's
proviso that no replacement text reintroduces a pattern match), running
`fix_file` a second time on the result of a first run changes nothing:
it returns `False`, performs no write, and leaves the filesystem as the
first run left it. -/
theorem claim_C5 (fs : FS) (path : String) (rules : List Rule) (c : Content)
    (hread : fs path = some c)
    (hfix : ∀ r ∈ rules,
      subG true r.pat r.repl none (applyRules rules c) = applyRules rules c) :
    (fix_file (fix_file fs path rules).fs path rules).changed = false ∧
    (fix_file (fix_file fs path rules).fs path rules).writes = [] ∧
    (fix_file (fix_file fs path rules).fs path rules).fs
      = (fix_file fs path rules).fs := by
  have hTfix : applyRules rules (applyRules rules c) = applyRules rules c :=
    applyRules_id_of_rules_id hfix
  have hread1 : (fix_file fs path rules).fs path = some (applyRules rules c) := by
    by_cases he : applyRules rules c = c
    · have hfe : fix_file fs path rules = ⟨false, fs, [], []⟩ := by
        unfold fix_file
        rw [hread]
        simp [he]
      rw [hfe]
      show fs path = some (applyRules rules c)
      rw [hread, he]
    · have hfe : fix_file fs path rules
          = ⟨true, fsWrite fs path (applyRules rules c), [path], []⟩ := by
        unfold fix_file
        rw [hread]
        simp [he]
      rw [hfe]
      simp [fsWrite]
  have hsecond : fix_file (fix_file fs path rules).fs path rules
      = ⟨false, (fix_file fs path rules).fs, [], []⟩ := by
    generalize hg : (fix_file fs path rules).fs = fs1 at hread1 ⊢
    unfold fix_file
    rw [hread1]
    simp [hTfix]
  rw [hsecond]
  exact ⟨rfl, rfl, rfl⟩

/-- Closed witness for C5 at a concrete filesystem, file and rule list. -/
theorem claim_C5_witness :
    ((fun q => if q = "f" then some ['a'] else none : FS) "f" = some ['a']) ∧
    (∀ r ∈ [(⟨litL ['x'] .eps, [.lit ['y']]⟩ : Rule)],
      subG true r.pat r.repl none
          (applyRules [⟨litL ['x'] .eps, [.lit ['y']]⟩] ['a'])
        = applyRules [⟨litL ['x'] .eps, [.lit ['y']]⟩] ['a']) ∧
    ((fix_file (fix_file (fun q => if q = "f" then some ['a'] else none) "f"
        [⟨litL ['x'] .eps, [.lit ['y']]⟩]).fs "f"
        [⟨litL ['x'] .eps, [.lit ['y']]⟩]).changed = false ∧
     (fix_file (fix_file (fun q => if q = "f" then some ['a'] else none) "f"
        [⟨litL ['x'] .eps, [.lit ['y']]⟩]).fs "f"
        [⟨litL ['x'] .eps, [.lit ['y']]⟩]).writes = [] ∧
     (fix_file (fix_file (fun q => if q = "f" then some ['a'] else none) "f"
        [⟨litL ['x'] .eps, [.lit ['y']]⟩]).fs "f"
        [⟨litL ['x'] .eps, [.lit ['y']]⟩]).fs
       = (fix_file (fun q => if q = "f" then some ['a'] else none) "f"
          [⟨litL ['x'] .eps, [.lit ['y']]⟩]).fs) :=
  ⟨by decide, by decide,
   claim_C5 (fun q => if q = "f" then some ['a'] else none) "f"
     [⟨litL ['x'] .eps, [.lit ['y']]⟩] ['a'] (by decide) (by decide)⟩

/-- C6: with DOTALL (as passed by `fix_file`, whose flag set is
`re.MULTILINE | re.DOTALL`) the dot matches every character including the
newline, so a dot-containing pattern spanning a line boundary is replaced
as one unit by `applyRules`; without flags (as in `fix_errors.py`'s
substitution) the dot matches exactly the non-newline characters and the
same pattern leaves the same input unchanged. -/
theorem claim_C6 :
    (∀ c : Char, classMatch true .any c = true) ∧
    (∀ c : Char, classMatch false .any c = true ↔ c ≠ '\n') ∧
    applyRules [⟨litP "a" (Pat.one .any (litP "b" .eps)), [.lit "X".toList]⟩]
        "a\nb".toList = "X".toList ∧
    subG false (litP "a" (Pat.one .any (litP "b" .eps))) [.lit "X".toList]
        none "a\nb".toList = "a\nb".toList := by
  refine ⟨fun c => rfl, fun c => ?_, by decide, by decide⟩
  simp [classMatch]

/-- C8: in `fix_all_errors.py`, the `fix_file` call for
`ScheduleSlotEditDialogController.java` whose two rules rewrite
`sisDataService\.getTeacherById\(` and `sisDataService\.getCourseById\(`
to themselves is a no-op for every filesystem: the call never changes the
content, never writes, returns `False`, leaves the filesystem untouched,
and the `"Fixed: ... - sisDataService"` message is never printed. -/
theorem claim_C8 : ∀ fs : FS,
    (fix_file fs ssePath sseFixAllRules).changed = false ∧
    (fix_file fs ssePath sseFixAllRules).writes = [] ∧
    (sseFixAllBlock fs).1 = fs ∧
    sseFixAllMsg ∉ (sseFixAllBlock fs).2 := by
  intro fs
  have hid : ∀ c : Content, applyRules sseFixAllRules c = c := by
    intro c
    show subG true
        (litP "sisDataService.getCourseById(" .eps)
        [.lit "sisDataService.getCourseById(".toList] none
        (subG true (litP "sisDataService.getTeacherById(" .eps)
          [.lit "sisDataService.getTeacherById(".toList] none c) = c
    rw [litP, litP, subG_litL_self true _ (by decide) none c,
      subG_litL_self true _ (by decide) none c]
  cases hfs : fs ssePath with
  | none =>
    have hfe : fix_file fs ssePath sseFixAllRules
        = ⟨false, fs, [], ["File not found: " ++ ssePath]⟩ := by
      unfold fix_file
      rw [hfs]
    refine ⟨by rw [hfe], by rw [hfe], ?_, ?_⟩
    · show (fix_file fs ssePath sseFixAllRules).fs = fs
      rw [hfe]
    · show sseFixAllMsg ∉ (fix_file fs ssePath sseFixAllRules).out ++ _
      rw [hfe]
      simp only [FixFileResult.out]
      intro hmem
      simp at hmem
      exact absurd hmem (by decide)
  | some c =>
    have hfe : fix_file fs ssePath sseFixAllRules = ⟨false, fs, [], []⟩ := by
      unfold fix_file
      rw [hfs]
      simp [hid c]
    refine ⟨by rw [hfe], by rw [hfe], ?_, ?_⟩
    · show (fix_file fs ssePath sseFixAllRules).fs = fs
      rw [hfe]
    · show sseFixAllMsg ∉ (fix_file fs ssePath sseFixAllRules).out ++ _
      rw [hfe]
      simp

/-- C1 (amended): `fix_file` and the `fix_errors.py` loop body both write
the file back exactly when the text after applying the rules differs from
the original — `fix_file` returns `True` exactly then, and the loop
prints `Fixed:` exactly then and `No match found in:` otherwise — but the
`ScheduleSlotEditDialogController` block of `fix_remaining.py` writes its
file unconditionally: a write is performed even when the substitutions
changed nothing, so the claim's "if and only if" does not hold for it. -/
theorem claim_C1 :
    (∀ (fs : FS) (path : String) (rules : List Rule) (c : Content),
      fs path = some c →
      ((fix_file fs path rules).changed = true ↔ applyRules rules c ≠ c) ∧
      ((fix_file fs path rules).writes = [path] ↔ applyRules rules c ≠ c) ∧
      (applyRules rules c = c →
        (fix_file fs path rules).writes = [] ∧
        (fix_file fs path rules).fs = fs) ∧
      (applyRules rules c ≠ c →
        (fix_file fs path rules).fs = fsWrite fs path (applyRules rules c))) ∧
    (∀ (fs : FS) (fx : FixEntry) (c : Content),
      fs fx.file = some c →
      ((runFix fs fx).2.1 = [fx.file] ↔
        subG false fx.old fx.new none c ≠ c) ∧
      (subG false fx.old fx.new none c = c →
        (runFix fs fx).2.1 = [] ∧ (runFix fs fx).1 = fs ∧
        (runFix fs fx).2.2 = ["No match found in: " ++ basename fx.file]) ∧
      (subG false fx.old fx.new none c ≠ c →
        (runFix fs fx).1
            = fsWrite fs fx.file (subG false fx.old fx.new none c) ∧
        (runFix fs fx).2.2 = ["Fixed: " ++ basename fx.file])) ∧
    (∀ (st : ScriptState) (c : Content), st.fs ssePath = some c →
      ∃ st', sseBlock st = some st' ∧
        st'.writes = st.writes ++ [ssePath] ∧
        st'.fs = fsWrite st.fs ssePath (sseEdit c)) := by
  refine ⟨?_, ?_, ?_⟩
  · intro fs path rules c h
    by_cases he : applyRules rules c = c
    · have hfe : fix_file fs path rules = ⟨false, fs, [], []⟩ := by
        unfold fix_file
        rw [h]
        simp [he]
      rw [hfe]
      refine ⟨by simp [he], by simp [he], fun _ => ⟨rfl, rfl⟩,
        fun hne => absurd he hne⟩
    · have hfe : fix_file fs path rules
          = ⟨true, fsWrite fs path (applyRules rules c), [path], []⟩ := by
        unfold fix_file
        rw [h]
        simp [he]
      rw [hfe]
      exact ⟨by simp [he], by simp [he], fun heq => absurd heq he,
        fun _ => rfl⟩
  · intro fs fx c h
    by_cases he : subG false fx.old fx.new none c = c
    · have hfe : runFix fs fx
          = (fs, [], ["No match found in: " ++ basename fx.file]) := by
        unfold runFix
        rw [h]
        simp [he]
      rw [hfe]
      exact ⟨by simp [he], fun _ => ⟨rfl, rfl, rfl⟩,
        fun hne => absurd he hne⟩
    · have hfe : runFix fs fx
          = (fsWrite fs fx.file (subG false fx.old fx.new none c),
             [fx.file], ["Fixed: " ++ basename fx.file]) := by
        unfold runFix
        rw [h]
        simp [he]
      rw [hfe]
      exact ⟨by simp [he], fun heq => absurd heq he, fun _ => ⟨rfl, rfl⟩⟩
  · intro st c h
    refine ⟨doPrint (doWrite st ssePath (sseEdit c))
      "Fixed: ScheduleSlotEditDialogController.java", ?_, rfl, rfl⟩
    simp [sseBlock, h]

/-- Counterexample to C1 as stated: on a filesystem where
`ScheduleSlotEditDialogController.java` holds the single character `x`,
the `fix_remaining.py` block leaves the text unchanged
(`sseEdit "x" = "x"`) yet still performs a write of that file, so "when
the final text equals the original, no write is performed" is false of
this patch operation. -/
theorem claim_C1_counterexample :
    sseEdit "x".toList = "x".toList ∧
    (sseBlock ⟨fun q => if q = ssePath then some "x".toList else none,
        [], []⟩).map (fun st => (st.writes, st.fs ssePath))
      = some ([ssePath], some "x".toList) := by
  constructor
  · decide
  · decide

/-- Closed witness for C1 at a concrete filesystem, file, rule list,
loop entry and script state. -/
theorem claim_C1_witness :
    (((fun q => if q = "f" then some ['a'] else none : FS) "f"
        = some ['a']) ∧
      ((fix_file (fun q => if q = "f" then some ['a'] else none) "f"
          [⟨litL ['a'] .eps, [.lit ['b']]⟩]).changed = true ↔
        applyRules [⟨litL ['a'] .eps, [.lit ['b']]⟩] ['a'] ≠ ['a'])) ∧
    (((fun q => if q = "t" then some ['a'] else none : FS) "t"
        = some ['a']) ∧
      subG false (litL ['a'] .eps) [.lit ['b']] none ['a'] ≠ ['a'] ∧
      (runFix (fun q => if q = "t" then some ['a'] else none)
          ⟨"t", litL ['a'] .eps, [.lit ['b']]⟩).1
        = fsWrite (fun q => if q = "t" then some ['a'] else none) "t"
            (subG false (litL ['a'] .eps) [.lit ['b']] none ['a']) ∧
      (runFix (fun q => if q = "t" then some ['a'] else none)
          ⟨"t", litL ['a'] .eps, [.lit ['b']]⟩).2.2
        = ["Fixed: " ++ basename "t"]) ∧
    ((⟨fun q => if q = ssePath then some "x".toList else none, [], []⟩ :
        ScriptState).fs ssePath = some "x".toList ∧
      ∃ st', sseBlock ⟨fun q => if q = ssePath then some "x".toList else none,
          [], []⟩ = some st' ∧
        st'.writes = ([] : List String) ++ [ssePath] ∧
        st'.fs = fsWrite (fun q => if q = ssePath then some "x".toList else none)
          ssePath (sseEdit "x".toList)) :=
  ⟨⟨by decide,
    (claim_C1.1 (fun q => if q = "f" then some ['a'] else none) "f"
      [⟨litL ['a'] .eps, [.lit ['b']]⟩] ['a'] (by decide)).1⟩,
   ⟨by decide, by decide,
    (claim_C1.2.1 (fun q => if q = "t" then some ['a'] else none)
      ⟨"t", litL ['a'] .eps, [.lit ['b']]⟩ ['a'] (by decide)).2.2
      (by decide)⟩,
   ⟨by decide,
    claim_C1.2.2 ⟨fun q => if q = ssePath then some "x".toList else none,
      [], []⟩ "x".toList (by decide)⟩⟩

/-- C2 (amended): in `fix_file` and in the `fix_errors.py` loop a missing
target file is detected, reported as `File not found: <path>` on standard
output, neither read nor written, and the batch continues with the next
file; but in `fix_remaining.py` the files are opened without an existence
check, so there a missing file raises an uncaught exception that aborts
the whole run before any later block. -/
theorem claim_C2 :
    (∀ (fs : FS) (path : String) (rules : List Rule), fs path = none →
      fix_file fs path rules
        = ⟨false, fs, [], ["File not found: " ++ path]⟩) ∧
    (∀ (fs : FS) (fx : FixEntry) (rest : List FixEntry), fs fx.file = none →
      runFix fs fx = (fs, [], ["File not found: " ++ fx.file]) ∧
      runFixes fs (fx :: rest)
        = ((runFixes fs rest).1, (runFixes fs rest).2.1,
            ("File not found: " ++ fx.file) :: (runFixes fs rest).2.2)) ∧
    (∀ st : ScriptState, st.fs roomEqPath = none →
      fixRemainingScript st = none) := by
  refine ⟨?_, ?_, ?_⟩
  · intro fs path rules h
    unfold fix_file
    rw [h]
  · intro fs fx rest h
    have hrf : runFix fs fx = (fs, [], ["File not found: " ++ fx.file]) := by
      unfold runFix
      rw [h]
    refine ⟨hrf, ?_⟩
    simp only [runFixes]
    rw [hrf]
    rfl
  · intro st h
    unfold fixRemainingScript roomEquipBlock
    rw [h]
    rfl

/-- Counterexample to C2 as stated: a `fix_remaining.py` run over a
filesystem missing `RoomEquipmentService.java` (but holding
`ScheduleSlotEditDialogController.java`) aborts immediately with an
uncaught exception — nothing is reported as `File not found`, and no
later file of the batch is processed — so "one missing file never aborts
the batch" is false of this run. -/
theorem claim_C2_counterexample :
    ((fun q => if q = ssePath then some "x".toList else none : FS) roomEqPath
      = none) ∧
    fixRemainingScript
      ⟨fun q => if q = ssePath then some "x".toList else none, [], []⟩
      = none := by
  constructor
  · decide
  · rfl

/-- Closed witness for C2 at a concrete filesystem and batch. -/
theorem claim_C2_witness :
    (((fun _ => none : FS) "f" = none) ∧
      fix_file (fun _ => none) "f" []
        = ⟨false, fun _ => none, [], ["File not found: " ++ "f"]⟩) ∧
    (((fun _ => none : FS) ("t" : String) = none) ∧
      (runFix (fun _ => none) ⟨"t", litL ['x'] .eps, [.lit ['y']]⟩
          = (fun _ => none, [], ["File not found: " ++ "t"]) ∧
        runFixes (fun _ => none) [⟨"t", litL ['x'] .eps, [.lit ['y']]⟩]
          = ((runFixes (fun _ => none) []).1,
              (runFixes (fun _ => none) []).2.1,
              ("File not found: " ++ "t") ::
                (runFixes (fun _ => none) []).2.2))) ∧
    (((⟨fun _ => none, [], []⟩ : ScriptState).fs roomEqPath = none) ∧
      fixRemainingScript ⟨fun _ => none, [], []⟩ = none) :=
  ⟨⟨rfl, claim_C2.1 (fun _ => none) "f" [] rfl⟩,
   ⟨rfl, claim_C2.2.1 (fun _ => none) ⟨"t", litL ['x'] .eps, [.lit ['y']]⟩ [] rfl⟩,
   ⟨rfl, claim_C2.2.2 ⟨fun _ => none, [], []⟩ rfl⟩⟩

/-- C7 (amended): the `fix_errors.py` loop has no exception handling, so
there an unhandled I/O failure on an existing file terminates the whole
batch — no later entry is processed (the guarded missing-file case aside);
but in the claim's other named source, the per-file `try`/`except` loop of
`fix_phase2_imports.py`, a failure is caught, an `ERROR Error fixing ...`
line is printed, and the loop continues: every listed file yields exactly
one status line, so that loop does have per-file isolation. -/
theorem claim_C7 :
    (∀ (fs : FS2) (fx : FixEntry) (e : String) (rest : List FixEntry),
      runFixE fs fx = .error e → runBatchE fs (fx :: rest) = .error e) ∧
    (∀ (fs : FS2) (fx : FixEntry), fs fx.file = .missing →
      runFixE fs fx = .ok (fs, ["File not found: " ++ fx.file])) ∧
    (∀ (fs : FS2) (p e : String) (rest : List String),
      phase2TryE fs p = .error e →
      phase2Batch fs (p :: rest)
        = ((phase2Batch fs rest).1,
            ("ERROR Error fixing " ++ p ++ ": " ++ e)
              :: (phase2Batch fs rest).2)) ∧
    (∀ (fs : FS2) (paths : List String),
      (phase2Batch fs paths).2.length = paths.length) := by
  refine ⟨?_, ?_, ?_, ?_⟩
  · intro fs fx e rest h
    show (do
        let r ← runFixE fs fx
        let r2 ← runBatchE r.1 rest
        (.ok (r2.1, r.2 ++ r2.2) : Except String (FS2 × List String)))
      = .error e
    rw [h]
    rfl
  · intro fs fx h
    unfold runFixE
    rw [h]
  · intro fs p e rest h
    have hex : phase2Except fs p
        = (fs, "ERROR Error fixing " ++ p ++ ": " ++ e) := by
      unfold phase2Except
      rw [h]
    show ((phase2Batch (phase2Except fs p).1 rest).1,
        (phase2Except fs p).2
          :: (phase2Batch (phase2Except fs p).1 rest).2) = _
    rw [hex]
  · intro fs paths
    induction paths generalizing fs with
    | nil => rfl
    | cons p rest ih =>
      show ((phase2Batch (phase2Except fs p).1 rest).1,
          (phase2Except fs p).2
            :: (phase2Batch (phase2Except fs p).1 rest).2).2.length
        = rest.length + 1
      simp [ih]

/-- Counterexample to C7 as stated: in the `fix_phase2_imports.py` loop a
read failure on the first file is caught — the `ERROR` line is printed —
and the file listed after the failing one is still processed and written,
so "no file listed after the failing one is processed in that run" and
"there is no per-file isolation" are false of that source. -/
theorem claim_C7_counterexample :
    (phase2TryE
        (fun q => if q = "u" then .file "x".toList false false
          else .file ['a'] true false) "t"
      = .error ("IOError reading " ++ "t")) ∧
    (phase2Batch
        (fun q => if q = "u" then .file "x".toList false false
          else .file ['a'] true false) ["t", "u"]).2
      = ["ERROR Error fixing t: IOError reading t", "OK Fixed: u"] ∧
    (phase2Batch
        (fun q => if q = "u" then .file "x".toList false false
          else .file ['a'] true false) ["t", "u"]).1 "u"
      = .file (phase2Process "x".toList).content false false := by
  refine ⟨rfl, rfl, rfl⟩

/-- Closed witness for C7: a read failure on the first entry aborts the
two-entry `fix_errors.py` batch, while the same failure in the
`fix_phase2_imports.py` loop only adds an `ERROR` line before the
remaining entry's processing. -/
theorem claim_C7_witness :
    (runFixE (fun _ => .file ['a'] true false)
        ⟨"t", litL ['x'] .eps, [.lit ['y']]⟩ = .error ("IOError reading t")) ∧
    runBatchE (fun _ => .file ['a'] true false)
        [⟨"t", litL ['x'] .eps, [.lit ['y']]⟩,
         ⟨"u", litL ['x'] .eps, [.lit ['y']]⟩]
      = .error ("IOError reading t") ∧
    phase2Batch (fun _ => .file ['a'] true false) ["t", "u"]
      = ((phase2Batch (fun _ => .file ['a'] true false) ["u"]).1,
          ("ERROR Error fixing " ++ "t" ++ ": " ++ ("IOError reading " ++ "t"))
            :: (phase2Batch (fun _ => .file ['a'] true false) ["u"]).2) :=
  ⟨rfl,
   claim_C7.1 (fun _ => .file ['a'] true false)
     ⟨"t", litL ['x'] .eps, [.lit ['y']]⟩ "IOError reading t"
     [⟨"u", litL ['x'] .eps, [.lit ['y']]⟩] rfl,
   claim_C7.2.2.1 (fun _ => .file ['a'] true false) "t"
     ("IOError reading " ++ "t") ["u"] rfl⟩

theorem optionBind_isSome {α β : Type} {o : Option α} (ho : o.isSome = true)
    {f : α → Option β} (hf : ∀ x, (f x).isSome = true) :
    (o.bind f).isSome = true := by
  obtain ⟨v, hv⟩ := Option.isSome_iff_exists.mp ho
  rw [hv]
  simp [hf v]

theorem getElem?_isSome_of_lt {α : Type} {l : List α} {i : Nat}
    (h : i < l.length) : (l[i]?).isSome = true := by
  rw [List.getElem?_eq_getElem h]
  rfl

/-- C10: every line-indexed edit named by the claim in `fix_remaining.py`
sits behind a sufficient length guard (`lines[180]`/`lines[297]` behind
`len(lines) >= 298`, `lines[362]` behind `>= 363`, `lines[1100]` behind
`>= 1101`, `lines[1179]` behind `>= 1180`, `lines[1362]` behind `>= 1363`),
so on every input the fallible list accesses all succeed: none of the edit
functions can raise an index error. -/
theorem claim_C10 : ∀ lines : List Content,
    (roomEquipEdit lines).isSome = true ∧
    (schedIssueEdit lines).isSome = true ∧
    (schedGenEdit lines).isSome = true ∧
    (schedulesEdit lines).isSome = true := by
  intro lines
  refine ⟨?_, ?_, ?_, ?_⟩
  · unfold roomEquipEdit
    by_cases h : lines.length ≥ 298
    · rw [if_pos h]
      simp only [Option.bind_eq_bind]
      refine optionBind_isSome (getElem?_isSome_of_lt (by omega)) ?_
      intro x
      refine optionBind_isSome (getElem?_isSome_of_lt ?_) (fun y => rfl)
      simp only [List.length_set]
      omega
    · rw [if_neg h]
      rfl
  · unfold schedIssueEdit
    by_cases h : lines.length ≥ 363
    · rw [if_pos h]
      simp only [Option.bind_eq_bind]
      exact optionBind_isSome (getElem?_isSome_of_lt (by omega)) (fun y => rfl)
    · rw [if_neg h]
      rfl
  · unfold schedGenEdit
    by_cases h : lines.length ≥ 1101
    · rw [if_pos h]
      simp only [Option.bind_eq_bind]
      exact optionBind_isSome (getElem?_isSome_of_lt (by omega)) (fun y => rfl)
    · rw [if_neg h]
      rfl
  · unfold schedulesEdit
    simp only [Option.bind_eq_bind, Option.pure_def, Option.some_bind]
    split
    case isTrue h1 =>
      refine optionBind_isSome (getElem?_isSome_of_lt (by omega)) ?_
      intro x
      split
      case isTrue hx =>
        split
        case isTrue h2 =>
          refine optionBind_isSome (getElem?_isSome_of_lt ?_) (fun y => by split <;> rfl)
          revert h2
          simp only [List.length_set]
          omega
        case isFalse h2 => rfl
      case isFalse hx =>
        split
        case isTrue h2 =>
          exact optionBind_isSome (getElem?_isSome_of_lt (by omega)) (fun y => by split <;> rfl)
        case isFalse h2 => rfl
    case isFalse h1 =>
      split
      case isTrue h2 =>
        exact optionBind_isSome (getElem?_isSome_of_lt (by omega)) (fun y => by split <;> rfl)
      case isFalse h2 => rfl

/-!
## Soundness of the matcher with respect to `InLang`

`InLang` over-approximates the texts a pattern can consume; these lemmas
let the proofs reason about the shape of whatever a phase-2 substitution
removed or collapsed.
-/

theorem tryCounts_some {α : Type} {f : Nat → Option α} :
    ∀ {m : Nat} {res : α}, tryCounts f m = some res →
      ∃ j, j ≤ m ∧ f j = some res := by
  intro m
  induction m with
  | zero =>
    intro res h
    exact ⟨0, le_rfl, h⟩
  | succ m ih =>
    intro res h
    simp only [tryCounts] at h
    split at h
    · next r hr =>
      exact ⟨m + 1, le_rfl, by rw [hr, h]⟩
    · next hr =>
      obtain ⟨j, hj, hfj⟩ := ih h
      exact ⟨j, Nat.le_succ_of_le hj, hfj⟩

theorem tryCountsPos_some {α : Type} {f : Nat → Option α} :
    ∀ {m : Nat} {res : α}, tryCountsPos f m = some res →
      ∃ j, 1 ≤ j ∧ j ≤ m ∧ f j = some res := by
  intro m
  induction m with
  | zero =>
    intro res h
    exact absurd h (by simp [tryCountsPos])
  | succ m ih =>
    intro res h
    simp only [tryCountsPos] at h
    split at h
    · next r hr =>
      exact ⟨m + 1, by omega, le_rfl, by rw [hr, h]⟩
    · next hr =>
      obtain ⟨j, h1, hj, hfj⟩ := ih h
      exact ⟨j, h1, Nat.le_succ_of_le hj, hfj⟩

theorem maxRun_le_length (p : Char → Bool) :
    ∀ s : List Char, maxRun p s ≤ s.length := by
  intro s
  induction s with
  | nil => simp [maxRun]
  | cons c cs ih =>
    simp only [maxRun, List.length_cons]
    split
    · omega
    · omega

theorem mem_take_maxRun (p : Char → Bool) :
    ∀ (s : List Char) (j : Nat), j ≤ maxRun p s →
      ∀ c ∈ s.take j, p c = true := by
  intro s
  induction s with
  | nil =>
    intro j hj c hc
    simp at hc
  | cons x xs ih =>
    intro j hj c hc
    simp only [maxRun] at hj
    by_cases hx : p x
    · rw [if_pos hx] at hj
      cases j with
      | zero => simp at hc
      | succ j =>
        simp only [List.take_succ_cons, List.mem_cons] at hc
        cases hc with
        | inl he => rw [he]; exact hx
        | inr hm => exact ih j (by omega) c hm
    · rw [if_neg hx] at hj
      have : j = 0 := by omega
      subst this
      simp at hc

theorem patSeq_assoc : ∀ a b c : Pat, patSeq (patSeq a b) c = patSeq a (patSeq b c) := by
  intro a
  induction a with
  | eps => intro b c; rfl
  | one x p ih => intro b c; simp [patSeq, ih]
  | star x p ih => intro b c; simp [patSeq, ih]
  | plus x p ih => intro b c; simp [patSeq, ih]
  | wb p ih => intro b c; simp [patSeq, ih]
  | nla w p ih => intro b c; simp [patSeq, ih]
  | cap g p ih ih2 => intro b c; simp [patSeq, ih2]

theorem InLang_append {d : Bool} {p : Pat} {t2 : List Char}
    (hp : InLang d p t2) :
    ∀ {g : Pat} {t1 : List Char}, InLang d g t1 →
      InLang d (patSeq g p) (t1 ++ t2) := by
  intro g t1 hg
  induction hg with
  | eps => simpa [patSeq] using hp
  | one hc _ ih => exact InLang.one hc ih
  | star hu _ ih =>
    rw [List.append_assoc]
    exact InLang.star hu ih
  | plus hne hu _ ih =>
    rw [List.append_assoc]
    exact InLang.plus hne hu ih
  | wb _ ih => exact InLang.wb ih
  | nla _ ih => exact InLang.nla ih
  | cap _ ih => exact InLang.cap (patSeq_assoc .. ▸ ih)

theorem matchK_sound (d : Bool) :
    ∀ (p : Pat) (prev : Option Char) (s : List Char)
      (k : Option Char → List Char → Option (List Char × List (List Char)))
      (res : List Char × List (List Char)),
      matchK d p prev s k = some res →
      ∃ t s' prev' res', s = t ++ s' ∧ InLang d p t ∧
        k prev' s' = some res' ∧ res'.1 = res.1 := by
  intro p
  induction p with
  | eps =>
    intro prev s k res h
    exact ⟨[], s, prev, res, rfl, InLang.eps, h, rfl⟩
  | one a p ih =>
    intro prev s k res h
    cases s with
    | nil => exact absurd h (by simp [matchK])
    | cons c cs =>
      simp only [matchK] at h
      by_cases hc : classMatch d a c = true
      · rw [if_pos hc] at h
        obtain ⟨t, s', prev', res', hsplit, hlang, hk, h1⟩ :=
          ih (some c) cs k res h
        exact ⟨c :: t, s', prev', res', by rw [hsplit]; rfl,
          InLang.one hc hlang, hk, h1⟩
      · rw [if_neg hc] at h
        exact absurd h (by simp)
  | star a p ih =>
    intro prev s k res h
    simp only [matchK] at h
    obtain ⟨j, hj, hfj⟩ := tryCounts_some h
    obtain ⟨t, s', prev', res', hsplit, hlang, hk, h1⟩ := ih _ _ k res hfj
    refine ⟨s.take j ++ t, s', prev', res', ?_, ?_, hk, h1⟩
    · rw [List.append_assoc, ← hsplit, List.take_append_drop]
    · exact InLang.star (fun c hc => mem_take_maxRun _ s j hj c hc) hlang
  | plus a p ih =>
    intro prev s k res h
    simp only [matchK] at h
    obtain ⟨j, h1j, hj, hfj⟩ := tryCountsPos_some h
    obtain ⟨t, s', prev', res', hsplit, hlang, hk, h1⟩ := ih _ _ k res hfj
    refine ⟨s.take j ++ t, s', prev', res', ?_, ?_, hk, h1⟩
    · rw [List.append_assoc, ← hsplit, List.take_append_drop]
    · refine InLang.plus ?_ (fun c hc => mem_take_maxRun _ s j hj c hc) hlang
      have hlen : (s.take j).length = j := by
        have := maxRun_le_length (classMatch d a) s
        simp only [List.length_take]
        omega
      intro hnil
      rw [hnil] at hlen
      simp at hlen
      omega
  | wb p ih =>
    intro prev s k res h
    simp only [matchK] at h
    split at h
    · obtain ⟨t, s', prev', res', hsplit, hlang, hk, h1⟩ := ih prev s k res h
      exact ⟨t, s', prev', res', hsplit, InLang.wb hlang, hk, h1⟩
    · exact absurd h (by simp)
  | nla w p ih =>
    intro prev s k res h
    simp only [matchK] at h
    split at h
    · exact absurd h (by simp)
    · obtain ⟨t, s', prev', res', hsplit, hlang, hk, h1⟩ := ih prev s k res h
      exact ⟨t, s', prev', res', hsplit, InLang.nla hlang, hk, h1⟩
  | cap g p ihg ihp =>
    intro prev s k res h
    simp only [matchK] at h
    obtain ⟨t1, s1, prev1, res1, hs1, hg, hk1, h11⟩ := ihg prev s _ res h
    obtain ⟨r2, hr2, hf⟩ := Option.map_eq_some'.mp hk1
    obtain ⟨t2, s2, prev2, res2, hs2, hp2, hk2, h21⟩ := ihp prev1 s1 k r2 hr2
    refine ⟨t1 ++ t2, s2, prev2, res2, ?_,
      InLang.cap (InLang_append hp2 hg), hk2, ?_⟩
    · rw [hs1, hs2, List.append_assoc]
    · rw [h21, ← h11, ← hf]

theorem matchAt_sound {d : Bool} {p : Pat} {prev : Option Char}
    {s rem : List Char} {caps : List (List Char)}
    (h : matchAt d p prev s = some (rem, caps)) :
    ∃ t, s = t ++ rem ∧ InLang d p t := by
  obtain ⟨t, s', prev', res', hsplit, hlang, hk, h1⟩ :=
    matchK_sound d p prev s _ _ h
  have : res' = (s', []) := by
    simpa using hk.symm
  rw [this] at h1
  simp at h1
  rw [h1] at hsplit
  exact ⟨t, hsplit, hlang⟩

/-!
## A substitution cannot destroy an occurrence it cannot touch

If every text a pattern can consume starts with a character outside `w`
(no match can begin inside an occurrence of `w`), never contains `w`, and
never ends in a proper prefix of `w` (no match can overlap an occurrence
from the left), then substituting that pattern preserves every occurrence
of `w`.
-/

theorem lastPrev_cons (prev : Option Char) (c : Char) (u : List Char) :
    lastPrev (some c) u = lastPrev prev (c :: u) := by
  cases u with
  | nil => simp [lastPrev]
  | cons y ys =>
    have hg : (y :: ys).getLast? = some ((y :: ys).getLast (by simp)) :=
      List.getLast?_eq_getLast _ _
    simp [lastPrev, hg, List.getLast?_cons_cons]

theorem subG_copies (d : Bool) (p : Pat) (r : List RPiece) (w : List Char)
    (hstart : ∀ t, InLang d p t → ∃ ch t', t = ch :: t' ∧ ch ∉ w) :
    ∀ (u b : List Char) (prev : Option Char), (∀ ch ∈ u, ch ∈ w) →
      subG d p r prev (u ++ b) = u ++ subG d p r (lastPrev prev u) b := by
  intro u
  induction u with
  | nil =>
    intro b prev _
    simp [lastPrev]
  | cons c u' ih =>
    intro b prev hu
    have hform : (c :: u') ++ b = c :: (u' ++ b) := rfl
    rw [hform]
    cases hm : matchAt d p prev (c :: (u' ++ b)) with
    | none =>
      rw [subG_cons_nomatch r hm,
        ih b (some c) (fun ch hch => hu ch (by simp [hch])),
        lastPrev_cons prev c u']
      rfl
    | some rc =>
      obtain ⟨rem, caps⟩ := rc
      exfalso
      obtain ⟨t, hsplit, hlang⟩ := matchAt_sound hm
      obtain ⟨ch, t', ht, hch⟩ := hstart t hlang
      rw [ht] at hsplit
      have hcc : c = ch := by
        have := hsplit
        simp only [List.cons_append] at this
        exact (List.cons.injEq _ _ _ _).mp this |>.1
      exact hch (hcc ▸ hu c (by simp))

theorem subG_preserves_infix (d : Bool) (p : Pat) (r : List RPiece)
    (w : List Char)
    (hstart : ∀ t, InLang d p t → ∃ ch t', t = ch :: t' ∧ ch ∉ w)
    (hnosub : ∀ t, InLang d p t → ¬ w <:+: t)
    (hnosufpre : ∀ t, InLang d p t → ∀ l, 1 ≤ l → l < w.length →
      ¬ w.take l <:+ t) :
    ∀ (n : Nat) (prev : Option Char) (s : List Char), s.length ≤ n →
      w <:+: s → w <:+: subG d p r prev s := by
  intro n
  induction n with
  | zero =>
    intro prev s hs hinf
    have hnil : s = [] := List.eq_nil_of_length_eq_zero (Nat.le_zero.mp hs)
    subst hnil
    have hwnil : w = [] := by simpa using hinf
    subst hwnil
    simp
  | succ n ih =>
    intro prev s hs hinf
    obtain ⟨x, y, hxy⟩ := hinf
    cases x with
    | nil =>
      subst hxy
      rw [List.nil_append,
        subG_copies d p r w hstart w (y) _ (fun ch hch => hch)]
      exact (List.prefix_append w _).isInfix
    | cons xc xtl =>
      subst hxy
      have hform : (xc :: xtl) ++ w ++ y = xc :: (xtl ++ w ++ y) := by
        simp
      rw [hform] at hs ⊢
      have htailinf : w <:+: xtl ++ w ++ y := ⟨xtl, y, rfl⟩
      have htlen : (xtl ++ w ++ y).length ≤ n := by
        simp only [List.length_cons] at hs
        omega
      cases hm : matchAt d p prev (xc :: (xtl ++ w ++ y)) with
      | none =>
        rw [subG_cons_nomatch r hm]
        exact List.infix_cons (ih (some xc) _ htlen htailinf)
      | some rc =>
        obtain ⟨rem, caps⟩ := rc
        obtain ⟨t, hsplit, hlang⟩ := matchAt_sound hm
        by_cases hlt : rem.length < (xtl ++ w ++ y).length + 1
        · rw [subG_cons_match r hm hlt]
          have hslen : (xc :: (xtl ++ w ++ y)).length
              = t.length + rem.length := by
            rw [hsplit]
            simp
          by_cases hcmp : t.length ≤ xtl.length + 1
          · -- the consumed text lies inside the prefix before the occurrence
            have hrem : rem = ((xc :: xtl).drop t.length) ++ (w ++ y) := by
              have h1 : rem = (t ++ rem).drop t.length := by
                rw [List.drop_left]
              rw [h1, ← hsplit]
              have h2 : xc :: (xtl ++ w ++ y)
                  = (xc :: xtl) ++ (w ++ y) := by simp
              rw [h2, List.drop_append_of_le_length (by simpa using hcmp)]
            have hreminf : w <:+: rem := by
              rw [hrem]
              exact ⟨(xc :: xtl).drop t.length, y, by simp⟩
            have hremlen : rem.length ≤ n := by
              simp only [List.length_append, List.length_cons] at hslen ⊢
              simp only [List.length_cons] at hs
              omega
            obtain ⟨u, v, huv⟩ := ih _ rem hremlen hreminf
            exact ⟨renderR caps r ++ u, v, by rw [← huv]; simp⟩
          · -- the consumed text reaches into the occurrence: impossible
            exfalso
            have hl1 : xtl.length + 1 < t.length := by omega
            obtain ⟨k, hklen⟩ : ∃ k, t.length = (xc :: xtl).length + k ∧
                k = t.length - (xtl.length + 1) := by
              refine ⟨t.length - (xtl.length + 1), ?_, rfl⟩
              simp only [List.length_cons]
              omega
            obtain ⟨hklen, hkval⟩ := hklen
            have hkpos : 1 ≤ k := by
              simp only [List.length_cons] at hklen
              omega
            have ht0 : t = (xc :: (xtl ++ w ++ y)).take t.length := by
              rw [hsplit]
              exact (List.take_left t rem).symm
            have ht : t = (xc :: xtl) ++ (w ++ y).take k := by
              calc t = (xc :: (xtl ++ w ++ y)).take t.length := ht0
                _ = ((xc :: xtl) ++ (w ++ y)).take t.length := by simp
                _ = ((xc :: xtl) ++ (w ++ y)).take ((xc :: xtl).length + k) := by
                    rw [← hklen]
                _ = (xc :: xtl) ++ (w ++ y).take k := List.take_append k
            by_cases hlw : w.length ≤ k
            · refine hnosub t hlang ?_
              refine ⟨xc :: xtl, y.take (k - w.length), ?_⟩
              rw [ht]
              have h4 : k = w.length + (k - w.length) := by omega
              rw [h4, List.take_append]
              simp
            · refine hnosufpre t hlang k hkpos (by omega) ?_
              refine ⟨xc :: xtl, ?_⟩
              rw [ht, List.take_append_of_le_length (by omega)]
        · rw [subG_cons_zero r hm hlt]
          exact List.infix_cons (ih (some xc) _ htlen htailinf)

/-!
## Inversion of `InLang` and facts about the phase-2 patterns
-/

theorem InLang_eps_inv {d : Bool} {t : List Char} (h : InLang d .eps t) :
    t = [] := by
  cases h
  rfl

theorem InLang_one_inv {d : Bool} {a : CClass} {p : Pat} {t : List Char}
    (h : InLang d (.one a p) t) :
    ∃ c t', classMatch d a c = true ∧ t = c :: t' ∧ InLang d p t' := by
  cases h with
  | one hc hp => exact ⟨_, _, hc, rfl, hp⟩

theorem InLang_star_inv {d : Bool} {a : CClass} {p : Pat} {t : List Char}
    (h : InLang d (.star a p) t) :
    ∃ u t', (∀ c ∈ u, classMatch d a c = true) ∧ t = u ++ t' ∧
      InLang d p t' := by
  cases h with
  | star hu hp => exact ⟨_, _, hu, rfl, hp⟩

theorem InLang_plus_inv {d : Bool} {a : CClass} {p : Pat} {t : List Char}
    (h : InLang d (.plus a p) t) :
    ∃ u t', u ≠ [] ∧ (∀ c ∈ u, classMatch d a c = true) ∧ t = u ++ t' ∧
      InLang d p t' := by
  cases h with
  | plus hne hu hp => exact ⟨_, _, hne, hu, rfl, hp⟩

theorem InLang_nla_inv {d : Bool} {w : List Char} {p : Pat} {t : List Char}
    (h : InLang d (.nla w p) t) : InLang d p t := by
  cases h with
  | nla hp => exact hp

theorem InLang_cap_inv {d : Bool} {g p : Pat} {t : List Char}
    (h : InLang d (.cap g p) t) : InLang d (patSeq g p) t := by
  cases h with
  | cap hp => exact hp

theorem InLang_litL_inv {d : Bool} :
    ∀ (w : List Char) (p : Pat) (t : List Char), InLang d (litL w p) t →
      ∃ t', t = w ++ t' ∧ InLang d p t' := by
  intro w
  induction w with
  | nil =>
    intro p t h
    exact ⟨t, rfl, h⟩
  | cons c w' ih =>
    intro p t h
    obtain ⟨x, t1, hc, ht, h1⟩ := InLang_one_inv h
    have hx : c = x := of_decide_eq_true hc
    obtain ⟨t', ht', h2⟩ := ih p t1 h1
    exact ⟨t', by rw [ht, ht', hx]; rfl, h2⟩

theorem patSeq_litL (q : Pat) :
    ∀ (w : List Char) (p : Pat), patSeq (litL w p) q = litL w (patSeq p q) := by
  intro w
  induction w with
  | nil => intro p; rfl
  | cons c w' ih =>
    intro p
    show Pat.one (CClass.lit c) (patSeq (litL w' p) q) = _
    rw [ih p]
    rfl

theorem containsSub_eq_true_iff : ∀ (w s : List Char),
    containsSub w s = true ↔ w <:+: s := by
  intro w s
  induction s with
  | nil =>
    simp only [containsSub, List.isEmpty_iff]
    constructor
    · intro h
      subst h
      exact List.nil_infix
    · intro h
      exact List.eq_nil_of_infix_nil h
  | cons c cs ih =>
    simp only [containsSub, Bool.or_eq_true, List.isPrefixOf_iff_prefix, ih,
      List.infix_cons_iff]

theorem wsChar_ne_semi {c : Char} (h : isWsChar c = true) : c ≠ ';' := by
  intro hc
  subst hc
  exact absurd h (by decide)

theorem removal_decomp {d : Bool} (X Y : List Char) :
    ∀ t, InLang d (litL "@Autowired".toList (.plus .ws
        (litL "private".toList (.plus .ws (litL X (.plus .ws
          (litL Y .eps))))))) t →
      ∃ u1 u2 u3, (∀ c ∈ u1, isWsChar c = true) ∧
        (∀ c ∈ u2, isWsChar c = true) ∧ (∀ c ∈ u3, isWsChar c = true) ∧
        t = "@Autowired".toList ++ (u1 ++ ("private".toList ++ (u2 ++
          (X ++ (u3 ++ Y))))) := by
  intro t h
  obtain ⟨t1, ht1, h1⟩ := InLang_litL_inv _ _ _ h
  obtain ⟨u1, t2, _, hu1, ht2, h2⟩ := InLang_plus_inv h1
  obtain ⟨t3, ht3, h3⟩ := InLang_litL_inv _ _ _ h2
  obtain ⟨u2, t4, _, hu2, ht4, h4⟩ := InLang_plus_inv h3
  obtain ⟨t5, ht5, h5⟩ := InLang_litL_inv _ _ _ h4
  obtain ⟨u3, t6, _, hu3, ht6, h6⟩ := InLang_plus_inv h5
  obtain ⟨t7, ht7, h7⟩ := InLang_litL_inv _ _ _ h6
  have ht8 : t7 = [] := InLang_eps_inv h7
  subst ht8
  refine ⟨u1, u2, u3, hu1, hu2, hu3, ?_⟩
  rw [ht1, ht2, ht3, ht4, ht5, ht6, ht7]
  simp

theorem getLast?_some_mem {α : Type} {l : List α} {a : α}
    (h : l.getLast? = some a) : a ∈ l := by
  obtain ⟨hne, heq⟩ := List.mem_getLast?_eq_getLast (Option.mem_def.mpr h)
  rw [heq]
  exact List.getLast_mem hne

theorem removal_facts {d : Bool} {X Y0 : List Char}
    (hX : ';' ∉ X) (hY0 : ';' ∉ Y0) (hY0l : Y0.getLast? = some 'y') :
    ∀ t, InLang d (litL "@Autowired".toList (.plus .ws
        (litL "private".toList (.plus .ws (litL X (.plus .ws
          (litL (Y0 ++ [';']) .eps))))))) t →
      (∃ rest, t = '@' :: rest) ∧
      ∃ Z, t = Z ++ [';'] ∧ ';' ∉ Z ∧ Z.getLast? = some 'y' := by
  intro t h
  obtain ⟨u1, u2, u3, hu1, hu2, hu3, ht⟩ := removal_decomp X (Y0 ++ [';']) t h
  have hY0ne : Y0 ≠ [] := by
    intro hn
    rw [hn] at hY0l
    simp at hY0l
  constructor
  · refine ⟨"Autowired".toList ++ (u1 ++ ("private".toList ++ (u2 ++
      (X ++ (u3 ++ (Y0 ++ [';'])))))), ?_⟩
    rw [ht]
    rfl
  · refine ⟨"@Autowired".toList ++ u1 ++ "private".toList ++ u2 ++ X ++ u3
      ++ Y0, ?_, ?_, ?_⟩
    · rw [ht]
      simp
    · intro hmem
      simp only [List.mem_append] at hmem
      rcases hmem with ((((((h1 | h2) | h3) | h4) | h5) | h6) | h7)
      · exact absurd h1 (by decide)
      · exact wsChar_ne_semi (hu1 _ h2) rfl
      · exact absurd h3 (by decide)
      · exact wsChar_ne_semi (hu2 _ h4) rfl
      · exact hX h5
      · exact wsChar_ne_semi (hu3 _ h6) rfl
      · exact hY0 h7
    · rw [List.getLast?_append_of_ne_nil _ hY0ne, hY0l]

theorem removal_infix_preserved {d : Bool} {X Y0 : List Char}
    (hX : ';' ∉ X) (hY0 : ';' ∉ Y0) (hY0l : Y0.getLast? = some 'y')
    {w0 : List Char} (hw0ne : w0 ≠ []) (hat : ('@' : Char) ∉ w0 ++ [';'])
    (hw0semi : ';' ∉ w0) (hw0l : w0.getLast? = some 'e')
    (r : List RPiece) (prev : Option Char) (s : List Char)
    (hinf : (w0 ++ [';']) <:+: s) :
    (w0 ++ [';']) <:+: subG d (litL "@Autowired".toList (.plus .ws
      (litL "private".toList (.plus .ws (litL X (.plus .ws
        (litL (Y0 ++ [';']) .eps))))))) r prev s := by
  refine subG_preserves_infix d _ r (w0 ++ [';']) ?_ ?_ ?_ s.length prev s
    le_rfl hinf
  · intro t ht
    obtain ⟨⟨rest, hr⟩, _⟩ := removal_facts hX hY0 hY0l t ht
    exact ⟨'@', rest, hr, hat⟩
  · intro t ht hsub
    obtain ⟨_, Z, hZ, hZs, hZl⟩ := removal_facts hX hY0 hY0l t ht
    obtain ⟨x, y, hxy⟩ := hsub
    rcases List.eq_nil_or_concat y with hy | ⟨L, b, hLb⟩
    · subst hy
      have hx : x ++ w0 = Z := by
        have h1 : (x ++ w0) ++ [';'] = Z ++ [';'] := by
          rw [← hZ, ← hxy]
          simp
        exact (List.append_inj' h1 rfl).1
      have hZe : Z.getLast? = some 'e' := by
        rw [← hx, List.getLast?_append_of_ne_nil x hw0ne, hw0l]
      rw [hZl] at hZe
      simp at hZe
    · rw [List.concat_eq_append] at hLb
      subst hLb
      have hsemiZ : ';' ∈ Z := by
        have h1 : (x ++ w0 ++ [';'] ++ L) ++ [b] = Z ++ [';'] := by
          rw [← hZ, ← hxy]
          simp
        have h2 := (List.append_inj' h1 rfl).1
        rw [← h2]
        simp
      exact hZs hsemiZ
  · intro t ht l hl1 hlw hsuf
    obtain ⟨_, Z, hZ, hZs, hZl⟩ := removal_facts hX hY0 hY0l t ht
    have htake_ne : (w0 ++ [';']).take l ≠ [] := by
      rw [ne_eq, List.take_eq_nil_iff]
      push_neg
      exact ⟨by omega, by simp⟩
    have hlast : ((w0 ++ [';']).take l).getLast? = t.getLast? := by
      obtain ⟨pre, hpre⟩ := hsuf
      rw [← hpre]
      exact (List.getLast?_append_of_ne_nil pre htake_ne).symm
    have htl : t.getLast? = some ';' := by
      rw [hZ, List.getLast?_append_of_ne_nil Z (by simp)]
      rfl
    have hmem : ';' ∈ (w0 ++ [';']).take l := by
      rw [htl] at hlast
      exact getLast?_some_mem hlast
    have hsw0 : ';' ∈ w0 := by
      have hlle : l ≤ w0.length := by
        simp only [List.length_append, List.length_cons,
          List.length_nil] at hlw
        omega
      rw [List.take_append_of_le_length hlle] at hmem
      exact List.mem_of_mem_take hmem
    exact hw0semi hsw0

theorem blank_facts {d : Bool} : ∀ t, InLang d blankCollapsePat t →
    (∃ rest, t = '\n' :: rest) ∧ (∀ c ∈ t, isWsChar c = true) := by
  intro t h
  obtain ⟨c1, t1, hc1, ht1, h1⟩ := InLang_one_inv h
  have hc1e : '\n' = c1 := of_decide_eq_true hc1
  obtain ⟨u1, t2, hu1, ht2, h2⟩ := InLang_star_inv h1
  obtain ⟨c2, t3, hc2, ht3, h3⟩ := InLang_one_inv h2
  have hc2e : '\n' = c2 := of_decide_eq_true hc2
  obtain ⟨u2, t4, hu2, ht4, h4⟩ := InLang_star_inv h3
  obtain ⟨c3, t5, hc3, ht5, h5⟩ := InLang_one_inv h4
  have hc3e : '\n' = c3 := of_decide_eq_true hc3
  have ht6 := InLang_eps_inv h5
  subst ht6
  rw [ht5] at ht4
  rw [ht4] at ht3
  rw [ht3] at ht2
  rw [ht2] at ht1
  rw [← hc1e, ← hc2e, ← hc3e] at ht1
  constructor
  · exact ⟨u1 ++ ('\n' :: (u2 ++ ['\n'])), by rw [ht1]⟩
  · intro c hc
    rw [ht1] at hc
    simp only [List.mem_cons, List.mem_append] at hc
    rcases hc with h | h | h | h | h
    · rw [h]; decide
    · exact hu1 c h
    · rw [h]; decide
    · exact hu2 c h
    · rcases h with h | h
      · rw [h]; decide
      · simp at h

theorem blank_infix_preserved {d : Bool} {w : List Char}
    (hnl : ('\n' : Char) ∉ w)
    (hhead : ∃ c w', w = c :: w' ∧ isWsChar c = false)
    (r : List RPiece) (prev : Option Char) (s : List Char)
    (hinf : w <:+: s) : w <:+: subG d blankCollapsePat r prev s := by
  refine subG_preserves_infix d _ r w ?_ ?_ ?_ s.length prev s le_rfl hinf
  · intro t ht
    obtain ⟨⟨rest, hr⟩, _⟩ := blank_facts t ht
    exact ⟨'\n', rest, hr, hnl⟩
  · intro t ht hsub
    obtain ⟨_, hws⟩ := blank_facts t ht
    obtain ⟨c, w', hw, hcws⟩ := hhead
    obtain ⟨x, y, hxy⟩ := hsub
    have hct : c ∈ t := by
      rw [← hxy, hw]
      simp
    rw [hws c hct] at hcws
    simp at hcws
  · intro t ht l hl1 _ hsuf
    obtain ⟨_, hws⟩ := blank_facts t ht
    obtain ⟨c, w', hw, hcws⟩ := hhead
    have hc : c ∈ w.take l := by
      rw [hw]
      cases l with
      | zero => omega
      | succ l => simp
    have hct : c ∈ t := hsuf.subset hc
    rw [hws c hct] at hcws
    simp at hcws

theorem infix_insert_after_newline (w A B I : List Char)
    (hnl : ('\n' : Char) ∉ w) (hA : A.getLast? = some '\n')
    (hinf : w <:+: A ++ B) : w <:+: A ++ I ++ B := by
  obtain ⟨x, y, hxy⟩ := hinf
  by_cases hc1 : x.length + w.length ≤ A.length
  · obtain ⟨k, hk⟩ : ∃ k, A.length = (x ++ w).length + k :=
      ⟨A.length - x.length - w.length, by simp; omega⟩
    have hA2 : A = (x ++ w) ++ y.take k := by
      calc A = ((x ++ w) ++ y).take A.length := by
              rw [hxy, List.take_left]
        _ = ((x ++ w) ++ y).take ((x ++ w).length + k) := by rw [← hk]
        _ = (x ++ w) ++ y.take k := List.take_append k
    have hwA : w <:+: A := ⟨x, y.take k, by rw [hA2]⟩
    have : w <:+: A ++ (I ++ B) :=
      hwA.trans (List.prefix_append A (I ++ B)).isInfix
    simpa [List.append_assoc] using this
  · by_cases hc2 : A.length ≤ x.length
    · have hxA : x = A ++ x.drop A.length := by
        have h1 : A = x.take A.length := by
          have h2 : A = (x ++ (w ++ y)).take A.length := by
            rw [← List.append_assoc, hxy, List.take_left]
          conv_lhs => rw [h2]
          rw [List.take_append_of_le_length hc2]
        conv_lhs => rw [← List.take_append_drop A.length x]
        rw [← h1]
      have hB : B = x.drop A.length ++ w ++ y := by
        have h1 : A ++ (x.drop A.length ++ w ++ y) = A ++ B := by
          conv_rhs => rw [← hxy, hxA]
          simp
        exact (List.append_cancel_left h1).symm
      have hwB : w <:+: B := ⟨x.drop A.length, y, by rw [hB]⟩
      exact hwB.trans (List.suffix_append (A ++ I) B).isInfix
    · exfalso
      obtain ⟨l, hlval, hl1, hlw⟩ :
          ∃ l, A.length = x.length + l ∧ 1 ≤ l ∧ l < w.length :=
        ⟨A.length - x.length, by omega, by omega, by omega⟩
      have hA2 : A = x ++ w.take l := by
        calc A = (x ++ (w ++ y)).take A.length := by
                rw [← List.append_assoc, hxy, List.take_left]
          _ = (x ++ (w ++ y)).take (x.length + l) := by rw [← hlval]
          _ = x ++ (w ++ y).take l := List.take_append l
          _ = x ++ w.take l := by
                rw [List.take_append_of_le_length (by omega)]
      have htake_ne : w.take l ≠ [] := by
        rw [ne_eq, List.take_eq_nil_iff]
        push_neg
        constructor
        · omega
        · intro hw
          rw [hw] at hlw
          simp at hlw
      have hlast : (w.take l).getLast? = some '\n' := by
        rw [← List.getLast?_append_of_ne_nil x htake_ne, ← hA2, hA]
      exact hnl (List.mem_of_mem_take (getLast?_some_mem hlast))

theorem searchEnd_take_getLast {d : Bool} {p : Pat}
    (hend : ∀ t, InLang d p t → t.getLast? = some '\n') :
    ∀ (s : List Char) (prev : Option Char) (i pos : Nat),
      searchEnd d p prev i s = some pos →
      i ≤ pos ∧ pos - i ≤ s.length ∧
        (s.take (pos - i)).getLast? = some '\n' := by
  intro s
  induction s with
  | nil =>
    intro prev i pos h
    simp only [searchEnd] at h
    split at h
    · next r hr =>
      exfalso
      obtain ⟨rem, caps⟩ := r
      obtain ⟨t, hsplit, hlang⟩ := matchAt_sound hr
      have ht : t = [] := by
        have := congrArg List.length hsplit
        simp at this
        exact List.eq_nil_of_length_eq_zero (by omega)
      rw [ht] at hlang
      have := hend [] hlang
      simp at this
    · exact absurd h (by simp)
  | cons c cs ih =>
    intro prev i pos h
    simp only [searchEnd] at h
    split at h
    · next rem caps hr =>
      obtain ⟨t, hsplit, hlang⟩ := matchAt_sound hr
      have hlen : t.length + rem.length = cs.length + 1 := by
        have := congrArg List.length hsplit
        simp at this
        omega
      have hpos : pos = i + (cs.length + 1 - rem.length) := by
        injection h with h
        omega
      have hpi : pos - i = t.length := by omega
      refine ⟨by omega, by simp only [List.length_cons]; omega, ?_⟩
      have htake : (c :: cs).take (pos - i) = t := by
        rw [hpi, hsplit, List.take_left]
      rw [htake]
      exact hend t hlang
    · next hr =>
      obtain ⟨h1, h2, h3⟩ := ih (some c) (i + 1) pos h
      refine ⟨by omega, by simp only [List.length_cons]; omega, ?_⟩
      have hne : cs.take (pos - (i + 1)) ≠ [] := by
        intro hnil
        rw [hnil] at h3
        simp at h3
      have hpi : pos - i = (pos - (i + 1)) + 1 := by omega
      rw [hpi, List.take_succ_cons]
      calc (c :: cs.take (pos - (i + 1))).getLast?
          = ([c] ++ cs.take (pos - (i + 1))).getLast? := rfl
        _ = (cs.take (pos - (i + 1))).getLast? :=
            List.getLast?_append_of_ne_nil [c] hne
        _ = some '\n' := h3

theorem classAnchor_ends_newline {d : Bool} :
    ∀ t, InLang d classAnchorPat t → t.getLast? = some '\n' := by
  intro t h
  have h1 := InLang_cap_inv h
  rw [show patSeq (litP "public class " (.plus .word (.star .notBrace
      (litP "\x7b" .eps)))) (.star .ws (.one (.lit '\n') .eps))
    = litL "public class ".toList (.plus .word (.star .notBrace
      (litL "\x7b".toList (.star .ws (.one (.lit '\n') .eps))))) from by
      simp only [litP, patSeq_litL, patSeq]
      rfl] at h1
  obtain ⟨t1, ht1, h2⟩ := InLang_litL_inv _ _ _ h1
  obtain ⟨u1, t2, _, hu1, ht2, h3⟩ := InLang_plus_inv h2
  obtain ⟨u2, t3, hu2, ht3, h4⟩ := InLang_star_inv h3
  obtain ⟨t4, ht4, h5⟩ := InLang_litL_inv _ _ _ h4
  obtain ⟨u3, t5, hu3, ht5, h6⟩ := InLang_star_inv h5
  obtain ⟨c5, t6, hc5, ht6, h7⟩ := InLang_one_inv h6
  have hc5e : '\n' = c5 := of_decide_eq_true hc5
  have ht7 := InLang_eps_inv h7
  subst ht7
  rw [ht6, ← hc5e] at ht5
  rw [ht5] at ht4
  rw [ht4] at ht3
  rw [ht3] at ht2
  rw [ht2] at ht1
  rw [ht1]
  have : "public class ".toList ++ (u1 ++ (u2 ++ ("\x7b".toList ++
      (u3 ++ ['\n'])))) = ("public class ".toList ++ (u1 ++ (u2 ++
      ("\x7b".toList ++ u3)))) ++ ['\n'] := by simp
  rw [this, List.getLast?_concat]

theorem importAnchor_ends_newline {d : Bool} :
    ∀ t, InLang d importAnchorPat t → t.getLast? = some '\n' := by
  intro t h
  have h1 := InLang_cap_inv h
  rw [show patSeq (litP "import " (.plus .notSemi (litP ";" .eps)))
      (.one (.lit '\n') (.nla "import".toList .eps))
    = litL "import ".toList (.plus .notSemi (litL ";".toList
      (.one (.lit '\n') (.nla "import".toList .eps)))) from by
      simp only [litP, patSeq_litL, patSeq]
      rfl] at h1
  obtain ⟨t1, ht1, h2⟩ := InLang_litL_inv _ _ _ h1
  obtain ⟨u1, t2, _, hu1, ht2, h3⟩ := InLang_plus_inv h2
  obtain ⟨t3, ht3, h4⟩ := InLang_litL_inv _ _ _ h3
  obtain ⟨c4, t5, hc4, ht4, h5⟩ := InLang_one_inv h4
  have hc4e : '\n' = c4 := of_decide_eq_true hc4
  have h6 := InLang_nla_inv h5
  have ht6 := InLang_eps_inv h6
  subst ht6
  rw [ht4, ← hc4e] at ht3
  rw [ht3] at ht2
  rw [ht2] at ht1
  rw [ht1]
  have : "import ".toList ++ (u1 ++ (";".toList ++ ['\n']))
      = ("import ".toList ++ (u1 ++ ";".toList)) ++ ['\n'] := by simp
  rw [this, List.getLast?_concat]

/-!
## Claim C9: the `fix_phase2_imports.py` insertion guards

`phase2Tail2` and `phase2Tail` name the suffixes of `phase2Process`
starting after the import step (`phase2Tail`) and after the three
removal substitutions (`phase2Tail2`); `phase2Process` is proved equal
to a case split feeding into `phase2Tail`.
-/

theorem phase2_eq_tail (c : Content) :
    phase2Process c =
      if containsSub importLine c then phase2Tail c false
      else
        match searchEnd false importAnchorPat none 0 c with
        | some pos =>
            phase2Tail (c.take pos ++ importInsertText ++ c.drop pos) true
        | none => phase2Tail c false := by
  unfold phase2Process phase2Tail phase2Tail2
  by_cases hg : containsSub importLine c = true
  · simp [hg]
  · simp only [hg, Bool.false_eq_true, if_false]
    cases searchEnd false importAnchorPat none 0 c with
    | none => rfl
    | some pos => rfl

theorem phase2Tail_importInserted (c1 : Content) (imp : Bool) :
    (phase2Tail c1 imp).importInserted = imp := rfl

theorem phase2Tail2_field_guard (c4 : Content) (imp : Bool)
    (h : containsSub fieldLine c4 = true) :
    (phase2Tail2 c4 imp).fieldInserted = false := by
  unfold phase2Tail2
  simp [h]

theorem removalTeacherPat_shape :
    removalTeacherPat = litL "@Autowired".toList (.plus .ws
      (litL "private".toList (.plus .ws (litL "TeacherRepository".toList
        (.plus .ws (litL ("teacherRepository".toList ++ [';'])
          .eps)))))) := rfl

theorem removalCoursePat_shape :
    removalCoursePat = litL "@Autowired".toList (.plus .ws
      (litL "private".toList (.plus .ws (litL "CourseRepository".toList
        (.plus .ws (litL ("courseRepository".toList ++ [';'])
          .eps)))))) := rfl

theorem removalStudentPat_shape :
    removalStudentPat = litL "@Autowired".toList (.plus .ws
      (litL "private".toList (.plus .ws (litL "StudentRepository".toList
        (.plus .ws (litL ("studentRepository".toList ++ [';'])
          .eps)))))) := rfl

theorem importLine_shape :
    importLine
      = "import com.heronix.scheduler.service.data.SISDataService".toList
        ++ [';'] := rfl

theorem fieldLine_shape :
    fieldLine = "private SISDataService sisDataService".toList ++ [';'] :=
  rfl

theorem line_preserved_removals {w0 : List Char} (hw0ne : w0 ≠ [])
    (hat : ('@' : Char) ∉ w0 ++ [';']) (hsemi : (';' : Char) ∉ w0)
    (hlast : w0.getLast? = some 'e') (s : Content)
    (h : (w0 ++ [';']) <:+: s) :
    (w0 ++ [';']) <:+: subG false removalStudentPat [] none
      (subG false removalCoursePat [] none
        (subG false removalTeacherPat [] none s)) := by
  rw [removalStudentPat_shape, removalCoursePat_shape,
    removalTeacherPat_shape]
  refine removal_infix_preserved (by decide) (by decide) (by decide)
    hw0ne hat hsemi hlast [] none _ ?_
  refine removal_infix_preserved (by decide) (by decide) (by decide)
    hw0ne hat hsemi hlast [] none _ ?_
  exact removal_infix_preserved (by decide) (by decide) (by decide)
    hw0ne hat hsemi hlast [] none s h

theorem phase2Tail2_preserves {w : List Char} (hnl : ('\n' : Char) ∉ w)
    (hhead : ∃ ch w2, w = ch :: w2 ∧ isWsChar ch = false)
    (c4 : Content) (imp : Bool) (h : w <:+: c4) :
    w <:+: (phase2Tail2 c4 imp).content := by
  unfold phase2Tail2
  by_cases hg : containsSub fieldLine c4 = true
  · simp only [hg, if_true]
    exact blank_infix_preserved hnl hhead _ none c4 h
  · simp only [hg, Bool.false_eq_true, if_false]
    cases hs : searchEnd false classAnchorPat none 0 c4 with
    | none => exact blank_infix_preserved hnl hhead _ none c4 h
    | some pos =>
      refine blank_infix_preserved hnl hhead _ none _ ?_
      obtain ⟨h0, hle, hlastA⟩ :=
        searchEnd_take_getLast classAnchor_ends_newline c4 none 0 pos hs
      refine infix_insert_after_newline w (c4.take pos) (c4.drop pos)
        fieldInsertText hnl ?_ ?_
      · simpa using hlastA
      · rw [List.take_append_drop]
        exact h

theorem phase2Tail_preserves_import (c1 : Content) (imp : Bool)
    (h : importLine <:+: c1) :
    importLine <:+: (phase2Tail c1 imp).content := by
  rw [importLine_shape] at h ⊢
  unfold phase2Tail
  refine phase2Tail2_preserves (by decide)
    ⟨'i', "mport com.heronix.scheduler.service.data.SISDataService".toList
      ++ [';'], by decide, by decide⟩ _ imp ?_
  exact line_preserved_removals (by decide) (by decide) (by decide)
    (by decide) c1 h

theorem phase2Tail_field_guard (c1 : Content) (imp : Bool)
    (h : fieldLine <:+: c1) :
    (phase2Tail c1 imp).fieldInserted = false := by
  unfold phase2Tail
  refine phase2Tail2_field_guard _ imp ?_
  rw [containsSub_eq_true_iff, fieldLine_shape]
  rw [fieldLine_shape] at h
  exact line_preserved_removals (by decide) (by decide) (by decide)
    (by decide) c1 h

theorem phase2_step1_keep {w : List Char} (hnl : ('\n' : Char) ∉ w)
    (c : Content) (h : w <:+: c) :
    ∃ c1 imp, phase2Process c = phase2Tail c1 imp ∧ w <:+: c1 := by
  by_cases hg : containsSub importLine c = true
  · exact ⟨c, false, by rw [phase2_eq_tail]; simp [hg], h⟩
  · cases hs : searchEnd false importAnchorPat none 0 c with
    | none =>
      exact ⟨c, false, by rw [phase2_eq_tail]; simp [hg, hs], h⟩
    | some pos =>
      refine ⟨c.take pos ++ importInsertText ++ c.drop pos, true,
        by rw [phase2_eq_tail]; simp [hg, hs], ?_⟩
      obtain ⟨h0, hle, hlastA⟩ :=
        searchEnd_take_getLast importAnchor_ends_newline c none 0 pos hs
      refine infix_insert_after_newline w (c.take pos) (c.drop pos)
        importInsertText hnl ?_ ?_
      · simpa using hlastA
      · rw [List.take_append_drop]
        exact h

theorem phase2_import_branch (c : Content)
    (h : (phase2Process c).importInserted = true) :
    ∃ pos, searchEnd false importAnchorPat none 0 c = some pos ∧
      phase2Process c
        = phase2Tail (c.take pos ++ importInsertText ++ c.drop pos)
            true := by
  by_cases hg : containsSub importLine c = true
  · rw [phase2_eq_tail] at h
    simp [hg, phase2Tail_importInserted] at h
  · cases hs : searchEnd false importAnchorPat none 0 c with
    | none =>
      rw [phase2_eq_tail] at h
      simp [hg, hs, phase2Tail_importInserted] at h
    | some pos =>
      exact ⟨pos, rfl, by rw [phase2_eq_tail]; simp [hg, hs]⟩

theorem phase2Tail2_field_branch (c4 : Content) (imp : Bool)
    (h : (phase2Tail2 c4 imp).fieldInserted = true) :
    ∃ pos, searchEnd false classAnchorPat none 0 c4 = some pos ∧
      (phase2Tail2 c4 imp).content
        = subG false blankCollapsePat [.lit "\n\n".toList] none
            (c4.take pos ++ fieldInsertText ++ c4.drop pos) := by
  unfold phase2Tail2 at h ⊢
  by_cases hg : containsSub fieldLine c4 = true
  · simp [hg] at h
  · simp only [hg, Bool.false_eq_true, if_false] at h ⊢
    cases hs : searchEnd false classAnchorPat none 0 c4 with
    | none =>
      rw [hs] at h
      simp at h
    | some pos =>
      exact ⟨pos, rfl, rfl⟩

theorem phase2_as_tail2 (c : Content) :
    ∃ c4 imp, phase2Process c = phase2Tail2 c4 imp := by
  rw [phase2_eq_tail]
  by_cases hg : containsSub importLine c = true
  · rw [if_pos hg]
    exact ⟨_, false, rfl⟩
  · rw [if_neg hg]
    cases searchEnd false importAnchorPat none 0 c with
    | none => exact ⟨_, false, rfl⟩
    | some pos => exact ⟨_, true, rfl⟩

theorem phase2_import_guard (c : Content)
    (h : containsSub importLine c = true) :
    (phase2Process c).importInserted = false := by
  rw [phase2_eq_tail, if_pos h]
  exact phase2Tail_importInserted c false

theorem phase2_field_guard (c : Content)
    (h : containsSub fieldLine c = true) :
    (phase2Process c).fieldInserted = false := by
  have hinf : fieldLine <:+: c := (containsSub_eq_true_iff _ _).mp h
  obtain ⟨c1, imp, heq, hinf1⟩ := phase2_step1_keep (by decide) c hinf
  rw [heq]
  exact phase2Tail_field_guard c1 imp hinf1

theorem phase2_import_contains (c : Content)
    (h : (phase2Process c).importInserted = true) :
    containsSub importLine (phase2Process c).content = true := by
  obtain ⟨pos, hs, heq⟩ := phase2_import_branch c h
  rw [heq, containsSub_eq_true_iff]
  apply phase2Tail_preserves_import
  have h1 : importLine <:+: importInsertText := ⟨['\n'], [], by decide⟩
  have h2 : importInsertText
      <:+: c.take pos ++ importInsertText ++ c.drop pos :=
    ⟨c.take pos, c.drop pos, by simp⟩
  exact h1.trans h2

theorem phase2_field_contains (c : Content)
    (h : (phase2Process c).fieldInserted = true) :
    containsSub fieldLine (phase2Process c).content = true := by
  obtain ⟨c4, imp, heq⟩ := phase2_as_tail2 c
  rw [heq] at h ⊢
  obtain ⟨pos, hs, hcont⟩ := phase2Tail2_field_branch c4 imp h
  rw [hcont, containsSub_eq_true_iff]
  refine blank_infix_preserved (by decide)
    ⟨'p', "rivate SISDataService sisDataService;".toList, by decide,
      by decide⟩ _ none _ ?_
  have h1 : fieldLine <:+: fieldInsertText :=
    ⟨"\n    @Autowired\n    ".toList, ['\n'], by decide⟩
  have h2 : fieldInsertText
      <:+: c4.take pos ++ fieldInsertText ++ c4.drop pos :=
    ⟨c4.take pos, c4.drop pos, by simp⟩
  exact h1.trans h2

/-- **C9** (corrected). The two insertions of `fix_phase2_imports.py` are
guarded by containment checks: the import line is inserted only when
absent and the field line only when absent, an inserted line is contained
in the run's output, and therefore a line inserted by one run is never
inserted again by a second run on that run's output. (The further claim
that a second run inserts *neither* line is false: see the
counterexample, where the first run's removal step manufactures a
fresh import anchor so that the second run performs an insertion the
first one could not.) -/
theorem claim_C9 (c : Content) :
    (containsSub importLine c = true →
      (phase2Process c).importInserted = false) ∧
    (containsSub fieldLine c = true →
      (phase2Process c).fieldInserted = false) ∧
    ((phase2Process c).importInserted = true →
      containsSub importLine (phase2Process c).content = true) ∧
    ((phase2Process c).fieldInserted = true →
      containsSub fieldLine (phase2Process c).content = true) ∧
    ((phase2Process c).importInserted = true →
      (phase2Process (phase2Process c).content).importInserted = false) ∧
    ((phase2Process c).fieldInserted = true →
      (phase2Process (phase2Process c).content).fieldInserted = false) := by
  refine ⟨phase2_import_guard c, phase2_field_guard c,
    phase2_import_contains c, phase2_field_contains c, ?_, ?_⟩
  · intro h
    exact phase2_import_guard _ (phase2_import_contains c h)
  · intro h
    exact phase2_field_guard _ (phase2_field_contains c h)

/-- **C9 counterexample**: on this content the first run of
`fix_phase2_imports.py` inserts nothing, yet the second run — applied to
the first run's own output — does insert the import line: the first
run's `@Autowired`-removal glues `impo` and `rt a;` into a fresh
`import a;` anchor line. So "running the script a second time on its own
output inserts neither again" fails as stated. -/
theorem claim_C9_counterexample :
    (phase2Process
      "impo@Autowired private TeacherRepository teacherRepository;rt a;\nx".toList).importInserted
        = false ∧
    (phase2Process (phase2Process
      "impo@Autowired private TeacherRepository teacherRepository;rt a;\nx".toList).content).importInserted
        = true := by
  decide

/-- Witness for C9: a content on which the first run inserts the import
line, and — by the claim theorem — the second run does not insert it
again. -/
theorem claim_C9_witness :
    (phase2Process
      "import a.b;\npublic class Foo \x7b\n    int x;\n\x7d\n".toList).importInserted
        = true ∧
    (phase2Process (phase2Process
      "import a.b;\npublic class Foo \x7b\n    int x;\n\x7d\n".toList).content).importInserted
        = false :=
  ⟨by decide,
    (claim_C9 "import a.b;\npublic class Foo \x7b\n    int x;\n\x7d\n".toList).2.2.2.2.1
      (by decide)⟩

/-!
## Claim C3: fold over the whole content, global replacement, and the
line-scoped block of `fix_remaining.py`
-/

theorem subG_litL_skip (d : Bool) (a : Char) (w2 rep : List Char)
    (u b : List Char) (prev : Option Char) (hu : ∀ ch ∈ u, ch ≠ a) :
    subG d (litL (a :: w2) .eps) [.lit rep] prev (u ++ b)
      = u ++ subG d (litL (a :: w2) .eps) [.lit rep] (lastPrev prev u) b := by
  refine subG_copies d (litL (a :: w2) .eps) [.lit rep] u ?_ u b prev
    (fun ch hch => hch)
  intro t ht
  obtain ⟨t1, ht1, hp⟩ := InLang_litL_inv _ _ _ ht
  have ht2 := InLang_eps_inv hp
  subst ht2
  refine ⟨a, w2, ?_, ?_⟩
  · rw [ht1]
    simp
  · intro hmem
    exact hu a hmem rfl

theorem subG_litL_consume (d : Bool) (a : Char) (w2 rep b : List Char)
    (prev : Option Char) :
    ∃ prev2, subG d (litL (a :: w2) .eps) [.lit rep] prev ((a :: w2) ++ b)
      = rep ++ subG d (litL (a :: w2) .eps) [.lit rep] prev2 b := by
  have hpre : (a :: w2).isPrefixOf ((a :: w2) ++ b) = true :=
    List.isPrefixOf_iff_prefix.mpr ⟨b, rfl⟩
  have hmatch : matchAt d (litL (a :: w2) .eps) prev (a :: (w2 ++ b))
      = some (b, []) := by
    rw [matchAt_litL]
    have hpre2 : (a :: w2).isPrefixOf (a :: (w2 ++ b)) = true := hpre
    rw [if_pos hpre2]
    have hdrop : (a :: (w2 ++ b)).drop (a :: w2).length = b := by
      show ((a :: w2) ++ b).drop (a :: w2).length = b
      exact List.drop_left _ _
    rw [hdrop]
  have hlt : b.length < (w2 ++ b).length + 1 := by
    simp only [List.length_append]
    omega
  refine ⟨prevAfter prev (a :: (w2 ++ b)) ((w2 ++ b).length + 1 - b.length),
    ?_⟩
  rw [show ((a :: w2) ++ b) = a :: (w2 ++ b) from rfl]
  rw [subG_cons_match [RPiece.lit rep] hmatch hlt]
  simp [renderR]

theorem subG_litL_global (d : Bool) (a : Char) (w2 rep : List Char) :
    ∀ (us : List (List Char)) (u0 : List Char) (prev : Option Char),
      (∀ ch ∈ u0, ch ≠ a) → (∀ u ∈ us, ∀ ch ∈ u, ch ≠ a) →
      subG d (litL (a :: w2) .eps) [.lit rep] prev
          (u0 ++ (us.map (fun u => (a :: w2) ++ u)).flatten)
        = u0 ++ (us.map (fun u => rep ++ u)).flatten := by
  intro us
  induction us with
  | nil =>
    intro u0 prev hu0 _
    simpa [subG_nil] using subG_litL_skip d a w2 rep u0 [] prev hu0
  | cons u1 rest ih =>
    intro u0 prev hu0 hus
    have hL : u0 ++ ((u1 :: rest).map (fun u => (a :: w2) ++ u)).flatten
        = u0 ++ ((a :: w2)
            ++ (u1 ++ (rest.map (fun u => (a :: w2) ++ u)).flatten)) := by
      simp
    rw [hL, subG_litL_skip d a w2 rep u0 _ prev hu0]
    obtain ⟨prev2, hcons⟩ := subG_litL_consume d a w2 rep
      (u1 ++ (rest.map (fun u => (a :: w2) ++ u)).flatten) (lastPrev prev u0)
    rw [hcons, ih u1 prev2 (hus u1 (by simp))
      (fun u hu => hus u (by simp [hu]))]
    simp

theorem roomEquipEdit_line_scoped (lines : List Content)
    (hlen : 298 ≤ lines.length) :
    ∃ lines2, roomEquipEdit lines = some (lines2, true) ∧
      ∀ i, i ≠ 180 → i ≠ 297 → lines2[i]? = lines[i]? := by
  have h180 : (180 : Nat) < lines.length := by omega
  have h297 : (297 : Nat)
      < (lines.set 180
          (strReplace ".getDisplayName()".toList [] lines[180])).length := by
    simp only [List.length_set]
    omega
  unfold roomEquipEdit
  rw [if_pos (by omega : lines.length ≥ 298)]
  simp only [Option.bind_eq_bind, List.getElem?_eq_getElem h180,
    Option.some_bind, List.getElem?_eq_getElem h297]
  refine ⟨_, rfl, ?_⟩
  intro i h1 h2
  rw [List.getElem?_set_ne (fun hq => h2 hq.symm),
    List.getElem?_set_ne (fun hq => h1 hq.symm)]

/-- C3 (amended): `fix_file` applies its rule list as a left-to-right fold
over the entire content — rule `i+1` operates on the text rule `i`
produced — and a substitution replaces every occurrence of its pattern:
every pattern occurrence of a literal separated by text free of the
pattern's first character is rewritten, and a single-character literal
rewrites every position holding that character; but the
`RoomEquipmentService` block of `fix_remaining.py` (named in the claim's
sources) is line-scoped, not content-scoped: it rewrites only lines 181
and 298 and leaves every other line — occurrences of its pattern
included — untouched. -/
theorem claim_C3 :
    (∀ (r : Rule) (rs : List Rule) (c : Content),
      applyRules (r :: rs) c
        = applyRules rs (subG true r.pat r.repl none c)) ∧
    (∀ (d : Bool) (a : Char) (w2 rep u0 : List Char)
      (us : List (List Char)) (prev : Option Char),
      (∀ ch ∈ u0, ch ≠ a) → (∀ u ∈ us, ∀ ch ∈ u, ch ≠ a) →
      subG d (litL (a :: w2) .eps) [.lit rep] prev
          (u0 ++ (us.map (fun u => (a :: w2) ++ u)).flatten)
        = u0 ++ (us.map (fun u => rep ++ u)).flatten) ∧
    (∀ (d : Bool) (ch : Char) (rep : List Char) (prev : Option Char)
      (s : List Char),
      subG d (litL [ch] .eps) [.lit rep] prev s
        = s.flatMap (fun x => if x = ch then rep else [x])) ∧
    (∀ lines : List Content, 298 ≤ lines.length →
      ∃ lines2, roomEquipEdit lines = some (lines2, true) ∧
        ∀ i, i ≠ 180 → i ≠ 297 → lines2[i]? = lines[i]?) :=
  ⟨fun r rs c => applyRules_cons r rs c,
   fun d a w2 rep u0 us prev hu0 hus =>
     subG_litL_global d a w2 rep us u0 prev hu0 hus,
   fun d ch rep prev s => subG_single d ch rep prev s,
   fun lines hlen => roomEquipEdit_line_scoped lines hlen⟩

set_option maxRecDepth 8192 in
/-- Counterexample to C3 as stated: on a 298-line file whose every line
contains `.getDisplayName()`, the `RoomEquipmentService` block of
`fix_remaining.py` fires and rewrites line 181, yet the occurrence on the
first line is left untouched — the edit is line-scoped, so "each
substitution replaces every occurrence of its pattern in the current
text" is false of that named source. -/
theorem claim_C3_counterexample :
    (roomEquipEdit
        (List.replicate 298 "x.getDisplayName();\n".toList)).map
        (fun p => (p.1.head?, p.1[180]?, p.2))
      = some (some "x.getDisplayName();\n".toList, some "x;\n".toList,
          true) := by
  decide

set_option maxRecDepth 8192 in
/-- Closed witness for C3: global replacement of the two-character
literal `ab` across two separated occurrences, and the line-scoped block
on a concrete 298-line file. -/
theorem claim_C3_witness :
    subG false (litL ('a' :: "b".toList) .eps) [.lit "X".toList] none
        ("z".toList
          ++ ([[], "q".toList].map (fun u => ('a' :: "b".toList) ++ u)).flatten)
      = "z".toList ++ ([[], "q".toList].map (fun u => "X".toList ++ u)).flatten ∧
    ∃ lines2,
      roomEquipEdit (List.replicate 298 "m".toList) = some (lines2, true) ∧
      ∀ i, i ≠ 180 → i ≠ 297 →
        lines2[i]? = (List.replicate 298 "m".toList)[i]? :=
  ⟨claim_C3.2.1 false 'a' "b".toList "X".toList "z".toList
      [[], "q".toList] none (by decide) (by decide),
   claim_C3.2.2.2 (List.replicate 298 "m".toList) (by simp)⟩
